import Mathlib

/-!
Verification development for the blocktest voxel-world server.

Shallow embedding of the coordinate algebra (`src/position.h`), the chunk
buffer and its sparse codecs (`src/chunkspan.cpp`, `src/statefulchunkoverlay.cpp`),
chunk transforms (`src/chunktransform.h`), the world chunk registry
(`src/world.cpp`), the session manager (`src/player_session.cpp`), the RPC
handlers (`src/server.cpp`) and the async chunk request machinery of the
client (`src/client.cpp`).

Machine integers are modelled as `Int`/`Nat`; wherever C++ overflow or a
failed `assert` matters, the embedding makes it explicit (`% 2 ^ w`,
`Option`).  C++ functions that can fail an `assert` return `Option`
(`none` = the assertion fires).
-/

namespace Blocktest

/-- Chunk width in blocks.  Modelled from the spec: the header `chunkdims.h`
that defines `CHUNK_WIDTH` is not present under `src/`; the spec fixes
`W=H=D=255` ("`W=H=D=255` in the source", §3). -/
def CHUNK_WIDTH : Int := 255

/-- Chunk height in blocks.  Modelled from the spec (see `CHUNK_WIDTH`). -/
def CHUNK_HEIGHT : Int := 255

/-- Chunk depth in blocks.  Modelled from the spec (see `CHUNK_WIDTH`). -/
def CHUNK_DEPTH : Int := 255

/-- `AbsoluteBlockPosition` (`Position<int64_t>`, `src/position.h`).  The
`int64_t` components are modelled as `Int`. -/
structure BlockPos where
  x : Int
  y : Int
  z : Int
deriving DecidableEq, Repr

/-- `AbsoluteChunkPosition` (`Position<int32_t>`, `src/position.h`).  The
`int32_t` components are modelled as `Int`; the i32 range restriction is
enforced where the source asserts it (`toAbsoluteChunk`). -/
structure ChunkPos where
  x : Int
  y : Int
  z : Int
deriving DecidableEq, Repr

/-- `ChunkLocalPosition` (`Position<uint32_t>`, `src/position.h`).  The
specialised constructor asserts `x < CHUNK_WIDTH ∧ y < CHUNK_HEIGHT ∧
z < CHUNK_DEPTH`; the bounds are carried as fields. -/
structure LocalPos where
  x : Nat
  y : Nat
  z : Nat
  hx : x < 255
  hy : y < 255
  hz : z < 255

theorem LocalPos.ext_iff {a b : LocalPos} :
    a = b ↔ a.x = b.x ∧ a.y = b.y ∧ a.z = b.z := by
  cases a; cases b; simp

instance : DecidableEq LocalPos := fun a b =>
  decidable_of_iff (a.x = b.x ∧ a.y = b.y ∧ a.z = b.z) LocalPos.ext_iff.symm

/-- `floor_div` (`src/position.h:132`): floor division implemented on top of
C++ truncating `/` and `%` (modelled by `Int.tdiv` / `Int.tmod`): the
quotient is decremented when the remainder is nonzero and its sign differs
from the divisor's. -/
def floor_div (a b : Int) : Int :=
  if a.tmod b ≠ 0 ∧ ¬(0 < a.tmod b ↔ 0 < b) then a.tdiv b - 1 else a.tdiv b

/-- `floor_mod` (`src/position.h:138`): the truncating remainder, shifted by
the divisor when nonzero and negative. -/
def floor_mod (a b : Int) : Int :=
  if a.tmod b ≠ 0 ∧ a.tmod b < 0 then a.tmod b + b else a.tmod b

/-- C++ `tmod` is bounded by the divisor in absolute value. -/
theorem tmod_bounds (a : Int) {b : Int} (hb : 0 < b) :
    -b < a.tmod b ∧ a.tmod b < b := by
  rcases le_or_lt 0 a with ha | ha
  · refine ⟨lt_of_lt_of_le (by omega) (Int.tmod_nonneg b ha), Int.tmod_lt_of_pos a hb⟩
  · have hneg : a.tmod b = -((-a).tmod b) := by
      rw [Int.tmod_def, Int.tmod_def, Int.neg_tdiv]
      ring
    have h1 : 0 ≤ (-a).tmod b := Int.tmod_nonneg b (by omega)
    have h2 : (-a).tmod b < b := Int.tmod_lt_of_pos (-a) hb
    omega

/-- For a positive divisor, the source's `floor_div` is Euclidean division,
i.e. true floor division. -/
theorem floor_div_eq_ediv (a : Int) {b : Int} (hb : 0 < b) :
    floor_div a b = a / b := by
  have hsum := Int.tdiv_add_tmod a b
  have hbnd := tmod_bounds a hb
  unfold floor_div
  by_cases hc : a.tmod b ≠ 0 ∧ ¬(0 < a.tmod b ↔ 0 < b)
  · rw [if_pos hc]
    obtain ⟨hne, hiff⟩ := hc
    have hr : a.tmod b < 0 := by
      by_contra h
      exact hiff (iff_of_true (by omega) hb)
    have key := (Int.ediv_emod_unique (a := a) (b := b)
      (q := a.tdiv b - 1) (r := a.tmod b + b) hb).mpr
      ⟨by linear_combination hsum, by omega, by omega⟩
    exact key.1.symm
  · rw [if_neg hc]
    have hr : 0 ≤ a.tmod b := by
      by_contra h
      exact hc ⟨by omega, fun hiff => by omega⟩
    have key := (Int.ediv_emod_unique (a := a) (b := b)
      (q := a.tdiv b) (r := a.tmod b) hb).mpr
      ⟨by linear_combination hsum, hr, hbnd.2⟩
    exact key.1.symm

/-- For a positive divisor, `floor_mod` is the Euclidean remainder. -/
theorem floor_mod_eq_emod (a : Int) {b : Int} (hb : 0 < b) :
    floor_mod a b = a % b := by
  have hsum := Int.tdiv_add_tmod a b
  have hbnd := tmod_bounds a hb
  unfold floor_mod
  by_cases hc : a.tmod b ≠ 0 ∧ a.tmod b < 0
  · rw [if_pos hc]
    have key := (Int.ediv_emod_unique (a := a) (b := b)
      (q := a.tdiv b - 1) (r := a.tmod b + b) hb).mpr
      ⟨by linear_combination hsum, by omega, by omega⟩
    exact key.2.symm
  · rw [if_neg hc]
    have hr : 0 ≤ a.tmod b := by omega
    have key := (Int.ediv_emod_unique (a := a) (b := b)
      (q := a.tdiv b) (r := a.tmod b) hb).mpr
      ⟨by linear_combination hsum, hr, hbnd.2⟩
    exact key.2.symm

/-- The `int32_t` range bounds asserted by `toAbsoluteChunk`
(`src/position.h:175`). -/
def fitsI32 (v : Int) : Prop := -(2 ^ 31) ≤ v ∧ v ≤ 2 ^ 31 - 1

instance (v : Int) : Decidable (fitsI32 v) := by unfold fitsI32; infer_instance

/-- `toAbsoluteChunk` (`src/position.h:166`): floor-divide the block
coordinates by the chunk dimensions; the source then asserts each quotient
fits in `int32_t` (`none` models the assertion firing). -/
def toAbsoluteChunk (b : BlockPos) : Option ChunkPos :=
  let cx := floor_div b.x CHUNK_WIDTH
  let cy := floor_div b.y CHUNK_HEIGHT
  let cz := floor_div b.z CHUNK_DEPTH
  if fitsI32 cx ∧ fitsI32 cy ∧ fitsI32 cz then some ⟨cx, cy, cz⟩ else none

/-- `chunkOrigin` (`src/position.h:188`): origin of the chunk in block
coordinates. -/
def chunkOrigin (c : ChunkPos) : BlockPos :=
  ⟨c.x * CHUNK_WIDTH, c.y * CHUNK_HEIGHT, c.z * CHUNK_DEPTH⟩

/-- `toAbsoluteBlock` on a chunk position and a local position
(`src/position.h:198`). -/
def toAbsoluteBlock (c : ChunkPos) (l : LocalPos) : BlockPos :=
  let origin := chunkOrigin c
  ⟨origin.x + (l.x : Int), origin.y + (l.y : Int), origin.z + (l.z : Int)⟩

/-- `toChunkLocal` (`src/position.h:208`): offset of a block from the given
chunk's origin; the source asserts the block lies within that chunk
(`none` models the assertion firing). -/
def toChunkLocal (b : BlockPos) (c : ChunkPos) : Option LocalPos :=
  if h : 0 ≤ b.x - (chunkOrigin c).x ∧ b.x - (chunkOrigin c).x < CHUNK_WIDTH ∧
      0 ≤ b.y - (chunkOrigin c).y ∧ b.y - (chunkOrigin c).y < CHUNK_HEIGHT ∧
      0 ≤ b.z - (chunkOrigin c).z ∧ b.z - (chunkOrigin c).z < CHUNK_DEPTH then
    some ⟨(b.x - (chunkOrigin c).x).toNat, (b.y - (chunkOrigin c).y).toNat,
      (b.z - (chunkOrigin c).z).toNat,
      by have hw : CHUNK_WIDTH = 255 := rfl; omega,
      by have hh : CHUNK_HEIGHT = 255 := rfl; omega,
      by have hd : CHUNK_DEPTH = 255 := rfl; omega⟩
  else none

/-- When the chunk coordinate was produced by `toAbsoluteChunk`, the
in-chunk asserts of `toChunkLocal` hold and the local offset is the floor
remainder. -/
theorem toChunkLocal_of_toAbsoluteChunk {b : BlockPos} {c : ChunkPos}
    (h : toAbsoluteChunk b = some c) :
    ∃ l : LocalPos, toChunkLocal b c = some l ∧
      (l.x : Int) = b.x % 255 ∧ (l.y : Int) = b.y % 255 ∧ (l.z : Int) = b.z % 255 := by
  replace h : (if fitsI32 (floor_div b.x CHUNK_WIDTH) ∧
      fitsI32 (floor_div b.y CHUNK_HEIGHT) ∧ fitsI32 (floor_div b.z CHUNK_DEPTH) then
      some (⟨floor_div b.x CHUNK_WIDTH, floor_div b.y CHUNK_HEIGHT,
        floor_div b.z CHUNK_DEPTH⟩ : ChunkPos) else none) = some c := h
  split at h
  · have hc : c = ⟨floor_div b.x CHUNK_WIDTH, floor_div b.y CHUNK_HEIGHT,
        floor_div b.z CHUNK_DEPTH⟩ := by
      cases h
      rfl
    subst hc
    have h255 : (0 : Int) < 255 := by norm_num
    have hx := floor_div_eq_ediv b.x h255
    have hy := floor_div_eq_ediv b.y h255
    have hz := floor_div_eq_ediv b.z h255
    have hw : CHUNK_WIDTH = 255 := rfl
    have hh : CHUNK_HEIGHT = 255 := rfl
    have hd : CHUNK_DEPTH = 255 := rfl
    have hdx : b.x - floor_div b.x CHUNK_WIDTH * 255 = b.x % 255 := by
      rw [hw, hx]
      have := Int.ediv_add_emod b.x 255
      linarith
    have hdy : b.y - floor_div b.y CHUNK_HEIGHT * 255 = b.y % 255 := by
      rw [hh, hy]
      have := Int.ediv_add_emod b.y 255
      linarith
    have hdz : b.z - floor_div b.z CHUNK_DEPTH * 255 = b.z % 255 := by
      rw [hd, hz]
      have := Int.ediv_add_emod b.z 255
      linarith
    have hx0 : 0 ≤ b.x % 255 := Int.emod_nonneg b.x (by norm_num)
    have hx1 : b.x % 255 < 255 := Int.emod_lt_of_pos b.x h255
    have hy0 : 0 ≤ b.y % 255 := Int.emod_nonneg b.y (by norm_num)
    have hy1 : b.y % 255 < 255 := Int.emod_lt_of_pos b.y h255
    have hz0 : 0 ≤ b.z % 255 := Int.emod_nonneg b.z (by norm_num)
    have hz1 : b.z % 255 < 255 := Int.emod_lt_of_pos b.z h255
    unfold toChunkLocal chunkOrigin
    rw [dif_pos (by simp only [hw, hh, hd] at *; constructor <;> omega)]
    exact ⟨_, rfl, by simp only [hw, hh, hd] at *; omega,
      by simp only [hw, hh, hd] at *; omega, by simp only [hw, hh, hd] at *; omega⟩
  · exact absurd h (by simp)

/-- C2: for every block position whose floor-divided chunk coordinates fit
in `int32_t` (the precondition asserted by the source), `toAbsoluteChunk`
floor-divides each component toward minus infinity, and
`chunkOrigin (toAbsoluteChunk b) + toChunkLocal b (toAbsoluteChunk b)`
reconstructs `b` exactly, component-wise. -/
theorem claim_C2_coord_roundtrip (b : BlockPos) (c : ChunkPos)
    (h : toAbsoluteChunk b = some c) :
    c.x = ⌊((b.x : ℚ)) / ((CHUNK_WIDTH : Int) : ℚ)⌋ ∧
    c.y = ⌊((b.y : ℚ)) / ((CHUNK_HEIGHT : Int) : ℚ)⌋ ∧
    c.z = ⌊((b.z : ℚ)) / ((CHUNK_DEPTH : Int) : ℚ)⌋ ∧
    ∃ l : LocalPos, toChunkLocal b c = some l ∧ toAbsoluteBlock c l = b := by
  obtain ⟨l, hl, hlx, hly, hlz⟩ := toChunkLocal_of_toAbsoluteChunk h
  have hcx : c.x = floor_div b.x CHUNK_WIDTH ∧ c.y = floor_div b.y CHUNK_HEIGHT ∧
      c.z = floor_div b.z CHUNK_DEPTH := by
    replace h : (if fitsI32 (floor_div b.x CHUNK_WIDTH) ∧
        fitsI32 (floor_div b.y CHUNK_HEIGHT) ∧ fitsI32 (floor_div b.z CHUNK_DEPTH) then
        some (⟨floor_div b.x CHUNK_WIDTH, floor_div b.y CHUNK_HEIGHT,
          floor_div b.z CHUNK_DEPTH⟩ : ChunkPos) else none) = some c := h
    split at h
    · cases h; exact ⟨rfl, rfl, rfl⟩
    · exact absurd h (by simp)
  have h255 : (0 : Int) < 255 := by norm_num
  have hw : CHUNK_WIDTH = 255 := rfl
  have hh : CHUNK_HEIGHT = 255 := rfl
  have hd : CHUNK_DEPTH = 255 := rfl
  have hfloor : ∀ a : Int, floor_div a 255 = ⌊((a : ℚ)) / ((255 : Int) : ℚ)⌋ := by
    intro a
    rw [floor_div_eq_ediv a h255]
    have h2 := Rat.floor_intCast_div_natCast a 255
    norm_num at h2 ⊢
    exact h2.symm
  refine ⟨by rw [hcx.1, hw]; exact hfloor b.x, by rw [hcx.2.1, hh]; exact hfloor b.y,
    by rw [hcx.2.2, hd]; exact hfloor b.z, l, hl, ?_⟩
  have hex := Int.ediv_add_emod b.x 255
  have hey := Int.ediv_add_emod b.y 255
  have hez := Int.ediv_add_emod b.z 255
  have hdx := floor_div_eq_ediv b.x h255
  have hdy := floor_div_eq_ediv b.y h255
  have hdz := floor_div_eq_ediv b.z h255
  have hbx : c.x * CHUNK_WIDTH + (l.x : Int) = b.x := by
    rw [hcx.1, hw, hdx, hlx]; linarith
  have hby : c.y * CHUNK_HEIGHT + (l.y : Int) = b.y := by
    rw [hcx.2.1, hh, hdy, hly]; linarith
  have hbz : c.z * CHUNK_DEPTH + (l.z : Int) = b.z := by
    rw [hcx.2.2, hd, hdz, hlz]; linarith
  show BlockPos.mk _ _ _ = b
  cases b
  simp only [BlockPos.mk.injEq]
  exact ⟨hbx, hby, hbz⟩

/-- Concrete instance of C2 at the negative-coordinate block position
`(-300, 5, 510)`. -/
theorem claim_C2_witness :
    toAbsoluteChunk ⟨-300, 5, 510⟩ = some ⟨-2, 0, 2⟩ ∧
    ((⟨-2, 0, 2⟩ : ChunkPos).x = ⌊((((-300 : Int)) : ℚ)) / ((CHUNK_WIDTH : Int) : ℚ)⌋ ∧
     (⟨-2, 0, 2⟩ : ChunkPos).y = ⌊((((5 : Int)) : ℚ)) / ((CHUNK_HEIGHT : Int) : ℚ)⌋ ∧
     (⟨-2, 0, 2⟩ : ChunkPos).z = ⌊((((510 : Int)) : ℚ)) / ((CHUNK_DEPTH : Int) : ℚ)⌋ ∧
     ∃ l : LocalPos, toChunkLocal ⟨-300, 5, 510⟩ ⟨-2, 0, 2⟩ = some l ∧
       toAbsoluteBlock ⟨-2, 0, 2⟩ l = ⟨-300, 5, 510⟩) :=
  ⟨by decide, claim_C2_coord_roundtrip ⟨-300, 5, 510⟩ ⟨-2, 0, 2⟩ (by decide)⟩

/-- `Block` (`src/block.h`): `enum class Block : uint8_t`.  Modelled by the
`uint8_t` representation, so that the raw-byte casts in the serializers are
the identity; the enumerators are the named constants below. -/
abbrev Block := Fin 256

def Block.Empty : Block := 0
def Block.Air : Block := 1
def Block.Grass : Block := 2
def Block.Stone : Block := 3
def Block.Water : Block := 4
def Block.Sand : Block := 5
def Block.Wood : Block := 6
def Block.Leaves : Block := 7
def Block.Bedrock : Block := 8
def Block.Dirt : Block := 9

/-- `CHUNK_BLOCK_COUNT` (`src/chunkspan.cpp:10`). -/
def CHUNK_BLOCK_COUNT : Nat := 255 * 255 * 255

/-- `ChunkSpan::strideY` (`src/chunkspan.h:13`). -/
def strideY : Nat := 255

/-- `ChunkSpan::strideZ` (`src/chunkspan.h:14`). -/
def strideZ : Nat := 255 * 255

/-- `ChunkSpan` (`src/chunkspan.h`): dense `W·H·D` array of blocks plus the
chunk position tag. -/
structure ChunkSpanM where
  position : ChunkPos
  storage : Fin CHUNK_BLOCK_COUNT → Block

/-- Flat storage index of a local position:
`x + y*strideY + z*strideZ` (`src/chunkspan.cpp:78`). -/
def LocalPos.index (l : LocalPos) : Fin CHUNK_BLOCK_COUNT :=
  ⟨l.x + l.y * strideY + l.z * strideZ, by
    have hx := l.hx
    have hy := l.hy
    have hz := l.hz
    simp only [strideY, strideZ, CHUNK_BLOCK_COUNT]
    omega⟩

/-- The flat index determines the local position (uniqueness of the mixed
base-255 representation). -/
theorem LocalPos.index_inj {a b : LocalPos} (h : a.index = b.index) : a = b := by
  have h1 : strideY = 255 := rfl
  have h2 : strideZ = 255 * 255 := rfl
  have hval : a.x + a.y * strideY + a.z * strideZ =
      b.x + b.y * strideY + b.z * strideZ := congrArg Fin.val h
  rw [h1, h2] at hval
  have hax := a.hx
  have hay := a.hy
  have haz := a.hz
  have hbx := b.hx
  have hby := b.hy
  have hbz := b.hz
  rw [LocalPos.ext_iff]
  omega

/-- `ChunkSpan::getBlock` (`src/chunkspan.cpp:77`). -/
def ChunkSpanM.getBlock (ch : ChunkSpanM) (l : LocalPos) : Block :=
  ch.storage l.index

/-- `ChunkSpan::setBlock` (`src/chunkspan.cpp:82`). -/
def ChunkSpanM.setBlock (ch : ChunkSpanM) (l : LocalPos) (b : Block) : ChunkSpanM :=
  { ch with storage := Function.update ch.storage l.index b }

/-- `ChunkTransform::apply` (`src/chunktransform.h:21`): a transform
rewrites a chunk buffer in place; modelled as a buffer-to-buffer map. -/
def ChunkTransformM := ChunkSpanM → ChunkSpanM

/-- `EmptyChunkTransform::apply` (`src/chunktransform.h:102`): fill every
cell with `Empty`. -/
def emptyChunkTransform : ChunkTransformM := fun ch =>
  { ch with storage := fun _ => Block.Empty }

/-- `MergeChunkTransform::apply` (`src/chunktransform.h:63`): apply both
transforms to copies of the destination; per cell, write the first's output
when non-`Empty`, else the second's output when non-`Empty`, else leave the
destination cell as it was. -/
def mergeChunkTransform (first : ChunkTransformM) (second : ChunkTransformM) :
    ChunkTransformM := fun chunk =>
  let copiedChunkOne := first chunk
  let copiedChunkTwo := second chunk
  { chunk with storage := fun i =>
      if copiedChunkOne.storage i ≠ Block.Empty then copiedChunkOne.storage i
      else if copiedChunkTwo.storage i ≠ Block.Empty then copiedChunkTwo.storage i
      else chunk.storage i }

/-- The per-cell value asserted by the claim (and spec §4.3): first's
output if non-`Empty`, else second's output — written unconditionally. -/
def mergeClaimedCell (first : ChunkTransformM) (second : ChunkTransformM)
    (chunk : ChunkSpanM) (i : Fin CHUNK_BLOCK_COUNT) : Block :=
  if (first chunk).storage i ≠ Block.Empty then (first chunk).storage i
  else (second chunk).storage i

/-- An all-`Stone` chunk buffer. -/
def stoneChunk : ChunkSpanM := ⟨⟨0, 0, 0⟩, fun _ => Block.Stone⟩

/-- First storage cell. -/
def idx0 : Fin CHUNK_BLOCK_COUNT := ⟨0, by decide⟩

/-- C8 fails as stated: when both transforms output `Empty` in a cell
(here both are `EmptyChunkTransform`) the merge leaves the destination's
previous value (`Stone`) in place instead of writing the second's `Empty`
output. -/
theorem claim_C8_counterexample :
    (mergeChunkTransform emptyChunkTransform emptyChunkTransform stoneChunk).storage idx0
      = Block.Stone ∧
    mergeClaimedCell emptyChunkTransform emptyChunkTransform stoneChunk idx0
      = Block.Empty ∧
    Block.Stone ≠ Block.Empty :=
  ⟨rfl, rfl, by decide⟩

/-- C8 (amended): `MergeChunkTransform` writes, per cell, the first
transform's output on a copy of the destination when non-`Empty`, else the
second's output on an independent copy when non-`Empty`, and otherwise
leaves the destination cell unchanged; the claimed always-write rule agrees
exactly on the cells where some transform output is non-`Empty` or the
destination cell was already `Empty`.  The position tag is untouched. -/
theorem claim_C8_merge_transform (first : ChunkTransformM) (second : ChunkTransformM)
    (chunk : ChunkSpanM) (i : Fin CHUNK_BLOCK_COUNT) :
    (mergeChunkTransform first second chunk).storage i =
      (if (first chunk).storage i ≠ Block.Empty then (first chunk).storage i
       else if (second chunk).storage i ≠ Block.Empty then (second chunk).storage i
       else chunk.storage i) ∧
    ((mergeChunkTransform first second chunk).storage i =
        mergeClaimedCell first second chunk i ↔
      (first chunk).storage i ≠ Block.Empty ∨ (second chunk).storage i ≠ Block.Empty ∨
        chunk.storage i = Block.Empty) ∧
    (mergeChunkTransform first second chunk).position = chunk.position := by
  refine ⟨rfl, ?_, rfl⟩
  unfold mergeChunkTransform mergeClaimedCell
  by_cases h1 : (first chunk).storage i = Block.Empty
  · by_cases h2 : (second chunk).storage i = Block.Empty
    · simp [h1, h2]
    · simp [h1, h2]
  · simp [h1]

/-- Chebyshev chunk distance computed by `Server::getUpdatedChunksInRange`
(`src/server.cpp:408`): `max(|dx|, max(|dy|, |dz|))`. -/
def chebDist (a : ChunkPos) (b : ChunkPos) : Int :=
  max (|a.x - b.x|) (max (|a.y - b.y|) (|a.z - b.z|))

/-- `Server::getUpdatedChunksInRange` (`src/server.cpp:400`): convert the
caller position to a chunk, keep the dirty entries within Chebyshev
distance `renderDistance`, then clear the whole dirty set
(`updatedChunks_.clear()`).  Returns `(result, dirty-set-afterwards)`;
`none` models the `toAbsoluteChunk` assertion firing. -/
def getUpdatedChunksInRange (updatedChunks : List ChunkPos) (playerPos : BlockPos)
    (renderDistance : Int) : Option (List ChunkPos × List ChunkPos) :=
  match toAbsoluteChunk playerPos with
  | none => none
  | some playerChunk =>
      some (updatedChunks.filter (fun c => chebDist c playerChunk ≤ renderDistance), [])

/-- `Server::markChunkUpdated` (`src/server.cpp:395`): insert into the dirty
set. -/
def markChunkUpdated (updatedChunks : List ChunkPos) (pos : ChunkPos) : List ChunkPos :=
  if pos ∈ updatedChunks then updatedChunks else updatedChunks ++ [pos]

/-- C1 fails as stated: with the dirty set `{(3,0,0)}`, a caller at the
origin and render distance 2, the returned set is empty (the entry is
outside the Chebyshev window), yet the dirty set afterwards is empty as
well — the entry outside the window did not remain; the code clears the
entire dirty set. -/
theorem claim_C1_counterexample :
    getUpdatedChunksInRange [⟨3, 0, 0⟩] ⟨0, 0, 0⟩ 2 = some ([], []) ∧
    (2 : Int) < chebDist ⟨3, 0, 0⟩ ⟨0, 0, 0⟩ ∧
    (⟨3, 0, 0⟩ : ChunkPos) ∉ ([] : List ChunkPos) := by
  refine ⟨by decide, by decide, by decide⟩

/-- C1 (amended): `GetUpdatedChunks` returns exactly the dirty chunk
coordinates whose Chebyshev chunk distance from the chunk containing the
caller's position is at most the render distance — and afterwards the
dirty set is empty: the call clears the entire dirty set, including the
entries outside the window. -/
theorem claim_C1_updated_chunks (dirty : List ChunkPos) (p : BlockPos) (r : Int)
    (pc : ChunkPos) (h : toAbsoluteChunk p = some pc) :
    ∃ result newDirty,
      getUpdatedChunksInRange dirty p r = some (result, newDirty) ∧
      (∀ c : ChunkPos, c ∈ result ↔ c ∈ dirty ∧ chebDist c pc ≤ r) ∧
      newDirty = [] := by
  refine ⟨dirty.filter (fun c => chebDist c pc ≤ r), [], ?_, ?_, rfl⟩
  · unfold getUpdatedChunksInRange
    rw [h]
  · intro c
    simp [List.mem_filter]

/-- Concrete instance of C1 (amended): two dirty chunks, one inside the
Chebyshev window, one outside; only the inside one is returned and the
dirty set is left empty. -/
theorem claim_C1_witness :
    toAbsoluteChunk ⟨0, 0, 0⟩ = some ⟨0, 0, 0⟩ ∧
    (∃ result newDirty,
      getUpdatedChunksInRange [⟨1, 1, 1⟩, ⟨3, 0, 0⟩] ⟨0, 0, 0⟩ 2 = some (result, newDirty) ∧
      (∀ c : ChunkPos, c ∈ result ↔ c ∈ [(⟨1, 1, 1⟩ : ChunkPos), ⟨3, 0, 0⟩] ∧
        chebDist c ⟨0, 0, 0⟩ ≤ 2) ∧
      newDirty = []) :=
  ⟨by decide, claim_C1_updated_chunks [⟨1, 1, 1⟩, ⟨3, 0, 0⟩] ⟨0, 0, 0⟩ 2 ⟨0, 0, 0⟩ (by decide)⟩

/-- Both square-root bounds follow from a bounded sum of squares:
`v² + rest ≤ r²` with `rest ≥ 0` forces `-r ≤ v ≤ r`. -/
theorem sq_le_bound {v r rest : Int} (hr : 0 ≤ r) (hrest : 0 ≤ rest)
    (h : v * v + rest ≤ r * r) : -r ≤ v ∧ v ≤ r := by
  constructor
  · by_contra hcon
    push_neg at hcon
    have hstep : r + 1 ≤ -v := by omega
    nlinarith [mul_le_mul hstep hstep (by omega) (by omega)]
  · by_contra hcon
    push_neg at hcon
    have hstep : r + 1 ≤ v := by omega
    nlinarith [mul_le_mul hstep hstep (by omega) (by omega)]

/-- The cubic scan of `World::ensureChunksLoaded` (`src/world.cpp:62`):
all offsets `(dx,dy,dz) ∈ [-radius, radius]³` whose Euclidean length is at
most `radius` (`sqrt(dx²+dy²+dz²) ≤ radius`, i.e. `dx²+dy²+dz² ≤ radius²`). -/
def sphereOffsets (radius : Int) : List (Int × Int × Int) :=
  (List.range (2 * radius.toNat + 1)).flatMap (fun (i : Nat) =>
    (List.range (2 * radius.toNat + 1)).flatMap (fun (j : Nat) =>
      (List.range (2 * radius.toNat + 1)).filterMap (fun (k : Nat) =>
        let dx := (i : Int) - radius
        let dy := (j : Int) - radius
        let dz := (k : Int) - radius
        if dx * dx + dy * dy + dz * dz ≤ radius * radius then some (dx, dy, dz)
        else none)))

/-- Characterisation of the scanned offsets: exactly the integer points of
the Euclidean ball of radius `radius`. -/
theorem mem_sphereOffsets {r : Int} (hr : 0 ≤ r) (d : Int × Int × Int) :
    d ∈ sphereOffsets r ↔
      d.1 * d.1 + d.2.1 * d.2.1 + d.2.2 * d.2.2 ≤ r * r := by
  obtain ⟨dx, dy, dz⟩ := d
  unfold sphereOffsets
  constructor
  · intro hmem
    obtain ⟨i, hi, hmem⟩ := List.mem_flatMap.mp hmem
    obtain ⟨j, hj, hmem⟩ := List.mem_flatMap.mp hmem
    obtain ⟨k, hk, hif⟩ := List.mem_filterMap.mp hmem
    dsimp only at hif
    split at hif
    · rename_i hcond
      obtain ⟨rfl, rfl, rfl⟩ : (i : Int) - r = dx ∧ (j : Int) - r = dy ∧
          (k : Int) - r = dz := by
        simpa [Prod.ext_iff] using Option.some.inj hif
      exact hcond
    · exact absurd hif (by simp)
  · intro hball
    have hx := sq_le_bound hr (by nlinarith [mul_self_nonneg dy, mul_self_nonneg dz])
      (by nlinarith [mul_self_nonneg dy, mul_self_nonneg dz] : dx * dx + 0 ≤ r * r)
    have hy := sq_le_bound hr (by nlinarith [mul_self_nonneg dx, mul_self_nonneg dz])
      (by nlinarith [mul_self_nonneg dx, mul_self_nonneg dz] : dy * dy + 0 ≤ r * r)
    have hz := sq_le_bound hr (by nlinarith [mul_self_nonneg dx, mul_self_nonneg dy])
      (by nlinarith [mul_self_nonneg dx, mul_self_nonneg dy] : dz * dz + 0 ≤ r * r)
    have hb1 : (dx + r).toNat ∈ List.range (2 * r.toNat + 1) := List.mem_range.mpr (by omega)
    have hb2 : (dy + r).toNat ∈ List.range (2 * r.toNat + 1) := List.mem_range.mpr (by omega)
    have hb3 : (dz + r).toNat ∈ List.range (2 * r.toNat + 1) := List.mem_range.mpr (by omega)
    apply List.mem_flatMap.mpr
    refine ⟨(dx + r).toNat, hb1, ?_⟩
    apply List.mem_flatMap.mpr
    refine ⟨(dy + r).toNat, hb2, ?_⟩
    apply List.mem_filterMap.mpr
    refine ⟨(dz + r).toNat, hb3, ?_⟩
    have ex : ((dx + r).toNat : Int) - r = dx := by omega
    have ey : ((dy + r).toNat : Int) - r = dy := by omega
    have ez : ((dz + r).toNat : Int) - r = dz := by omega
    simp only [ex, ey, ez]
    rw [if_pos hball]

/-- Insertion into the world's chunk map keyed by position
(`chunks_[chunkPos] = chunk`, `src/world.cpp:108`), at residency level. -/
def insertChunkPos (resident : List ChunkPos) (c : ChunkPos) : List ChunkPos :=
  if c ∈ resident then resident else resident ++ [c]

theorem mem_insertChunkPos {resident : List ChunkPos} {c x : ChunkPos} :
    x ∈ insertChunkPos resident c ↔ x ∈ resident ∨ x = c := by
  unfold insertChunkPos
  split <;> rename_i hmem
  · constructor
    · exact Or.inl
    · rintro (hx | rfl) <;> [exact hx; exact hmem]
  · simp

theorem mem_foldl_insertChunkPos (cs : List ChunkPos) (resident : List ChunkPos)
    (x : ChunkPos) :
    x ∈ cs.foldl insertChunkPos resident ↔ x ∈ resident ∨ x ∈ cs := by
  induction cs generalizing resident with
  | nil => simp
  | cons c rest ih =>
    simp only [List.foldl_cons, ih, mem_insertChunkPos, List.mem_cons]
    tauto

/-- `World::ensureChunksLoaded` (`src/world.cpp:32`) at residency level:
convert every anchor block position (static anchors plus tracked-entity
positions, supplied here as one list) to its chunk, collect all chunks
within the Euclidean sphere of `radius` around each, and insert the ones
not already resident.  Nothing is ever removed here (eviction lives only in
`World::garbageCollectChunks`, which no caller in the repository invokes).
`none` models the `toAbsoluteChunk` assertion firing on an anchor. -/
def ensureChunksLoaded (anchors : List BlockPos) (radius : Nat)
    (resident : List ChunkPos) : Option (List ChunkPos) :=
  match anchors.mapM toAbsoluteChunk with
  | none => none
  | some anchorChunks =>
      let chunksToLoad := anchorChunks.flatMap (fun ac =>
        (sphereOffsets (radius : Int)).map
          (fun d => (⟨ac.x + d.1, ac.y + d.2.1, ac.z + d.2.2⟩ : ChunkPos)))
      some (chunksToLoad.foldl insertChunkPos resident)

/-- C4 fails as stated: `ensureChunksLoaded` only loads and never evicts.
With no anchors and a previously resident chunk `(5,5,5)`, the chunk stays
resident after the call although it lies strictly outside the (empty) union
of anchor spheres. -/
theorem claim_C4_counterexample :
    ensureChunksLoaded [] 1 [⟨5, 5, 5⟩] = some [⟨5, 5, 5⟩] ∧
    (⟨5, 5, 5⟩ : ChunkPos) ∈ [(⟨5, 5, 5⟩ : ChunkPos)] ∧
    ¬ ∃ ac : ChunkPos, ac ∈ ([] : List ChunkPos) ∧
      ((5 : Int) - ac.x) * (5 - ac.x) + (5 - ac.y) * (5 - ac.y) +
        (5 - ac.z) * (5 - ac.z) ≤ 1 * 1 :=
  ⟨rfl, by decide, by simp⟩

/-- C4 (amended): after `ensureChunksLoaded`, a chunk is resident iff it
was already resident or lies within Euclidean distance `radius` of some
anchor's chunk.  In particular every chunk inside the union of anchor
spheres is resident, but previously resident chunks outside the union
remain resident — eviction happens only in `garbageCollectChunks`. -/
theorem claim_C4_ensure_chunks_loaded (anchors : List BlockPos) (radius : Nat)
    (resident : List ChunkPos) (acs : List ChunkPos)
    (h : anchors.mapM toAbsoluteChunk = some acs) :
    ∃ resident2, ensureChunksLoaded anchors radius resident = some resident2 ∧
      ∀ c : ChunkPos, c ∈ resident2 ↔ c ∈ resident ∨ ∃ ac ∈ acs,
        (c.x - ac.x) * (c.x - ac.x) + (c.y - ac.y) * (c.y - ac.y) +
          (c.z - ac.z) * (c.z - ac.z) ≤ (radius : Int) * (radius : Int) := by
  refine ⟨_, by unfold ensureChunksLoaded; rw [h], ?_⟩
  intro c
  rw [mem_foldl_insertChunkPos]
  apply or_congr Iff.rfl
  simp only [List.mem_flatMap, List.mem_map]
  constructor
  · rintro ⟨ac, hac, d, hd, rfl⟩
    refine ⟨ac, hac, ?_⟩
    have := (mem_sphereOffsets (by positivity) d).mp hd
    obtain ⟨dx, dy, dz⟩ := d
    simpa using this
  · rintro ⟨ac, hac, hball⟩
    refine ⟨ac, hac, (c.x - ac.x, c.y - ac.y, c.z - ac.z), ?_, ?_⟩
    · exact (mem_sphereOffsets (by positivity) _).mpr (by simpa using hball)
    · cases c
      simp

/-- Concrete instance of C4 (amended): one anchor at the origin, radius 1,
nothing previously resident. -/
theorem claim_C4_witness :
    ([(⟨0, 0, 0⟩ : BlockPos)].mapM toAbsoluteChunk = some [(⟨0, 0, 0⟩ : ChunkPos)]) ∧
    (∃ resident2, ensureChunksLoaded [⟨0, 0, 0⟩] 1 [] = some resident2 ∧
      ∀ c : ChunkPos, c ∈ resident2 ↔ c ∈ ([] : List ChunkPos) ∨
        ∃ ac ∈ [(⟨0, 0, 0⟩ : ChunkPos)],
          (c.x - ac.x) * (c.x - ac.x) + (c.y - ac.y) * (c.y - ac.y) +
            (c.z - ac.z) * (c.z - ac.z) ≤ ((1 : Nat) : Int) * ((1 : Nat) : Int)) :=
  ⟨by decide, claim_C4_ensure_chunks_loaded [⟨0, 0, 0⟩] 1 [] [⟨0, 0, 0⟩] (by decide)⟩

/-- When `toChunkLocal` succeeds (its asserts hold), adding the local
offset back to the chunk origin reconstructs the block position. -/
theorem toAbsoluteBlock_toChunkLocal {b : BlockPos} {c : ChunkPos} {l : LocalPos}
    (hl : toChunkLocal b c = some l) : toAbsoluteBlock c l = b := by
  unfold toChunkLocal at hl
  split at hl
  · rename_i hcond
    obtain ⟨h1, h2, h3, h4, h5, h6⟩ := hcond
    cases hl
    unfold toAbsoluteBlock
    obtain ⟨bx, by2, bz⟩ := b
    simp only [chunkOrigin, BlockPos.mk.injEq] at h1 h3 h5 ⊢
    refine ⟨?_, ?_, ?_⟩ <;> omega
  · exact absurd hl (by simp)

/-- The `(chunk, local)` decomposition determines the block position:
two block positions with the same chunk and the same local offset are
equal. -/
theorem block_decomposition_inj {p q : BlockPos} {c : ChunkPos} {lp lq : LocalPos}
    (hp : toChunkLocal p c = some lp) (hq : toChunkLocal q c = some lq)
    (hl : lp = lq) : p = q := by
  have h1 := toAbsoluteBlock_toChunkLocal hp
  have h2 := toAbsoluteBlock_toChunkLocal hq
  rw [← h1, ← h2, hl]

/-- The world's chunk registry `ChunkMap` (`src/world.h:33`,
`std::unordered_map` keyed by chunk position), as an association list. -/
def WorldChunks := List (ChunkPos × ChunkSpanM)

/-- Map lookup `chunks_.find(pos)` (`src/world.cpp:207`). -/
def lookupChunk (w : WorldChunks) (pos : ChunkPos) : Option ChunkSpanM :=
  (w.find? (fun e => decide (e.1 = pos))).map Prod.snd

/-- In-place mutation of the chunk stored under `pos` (through the map
iterator, `src/world.cpp:212`). -/
def updateChunk (w : WorldChunks) (pos : ChunkPos) (ch : ChunkSpanM) : WorldChunks :=
  w.map (fun e => if e.1 = pos then (e.1, ch) else e)

theorem lookupChunk_cons (k : ChunkPos) (v : ChunkSpanM) (rest : WorldChunks)
    (pos : ChunkPos) :
    lookupChunk ((k, v) :: rest) pos =
      if k = pos then some v else lookupChunk rest pos := by
  unfold lookupChunk
  by_cases he : k = pos
  · rw [List.find?_cons_of_pos _ (by simpa using he), if_pos he]
    rfl
  · rw [List.find?_cons_of_neg _ (by simpa using he), if_neg he]

theorem updateChunk_cons (k : ChunkPos) (v : ChunkSpanM) (rest : WorldChunks)
    (pos : ChunkPos) (ch : ChunkSpanM) :
    updateChunk ((k, v) :: rest) pos ch =
      (if k = pos then (k, ch) else (k, v)) :: updateChunk rest pos ch := rfl

theorem lookupChunk_updateChunk_same (w : WorldChunks) (pos : ChunkPos) (ch : ChunkSpanM)
    (h : (lookupChunk w pos).isSome) :
    lookupChunk (updateChunk w pos ch) pos = some ch := by
  induction w with
  | nil => simp [lookupChunk] at h
  | cons e rest ih =>
    obtain ⟨k, v⟩ := e
    rw [updateChunk_cons]
    by_cases he : k = pos
    · rw [if_pos he, lookupChunk_cons, if_pos he]
    · rw [if_neg he, lookupChunk_cons, if_neg he]
      rw [lookupChunk_cons, if_neg he] at h
      exact ih h

theorem lookupChunk_updateChunk_ne (w : WorldChunks) (pos pos2 : ChunkPos)
    (ch : ChunkSpanM) (h : pos2 ≠ pos) :
    lookupChunk (updateChunk w pos ch) pos2 = lookupChunk w pos2 := by
  induction w with
  | nil => rfl
  | cons e rest ih =>
    obtain ⟨k, v⟩ := e
    rw [updateChunk_cons]
    by_cases he : k = pos
    · have he2 : ¬(k = pos2) := fun hx => h (by rw [← hx]; exact he)
      rw [if_pos he, lookupChunk_cons, if_neg he2, lookupChunk_cons, if_neg he2]
      exact ih
    · rw [if_neg he, lookupChunk_cons, lookupChunk_cons]
      by_cases he2 : k = pos2
      · rw [if_pos he2, if_pos he2]
      · rw [if_neg he2, if_neg he2]
        exact ih

/-- `World::getBlockIfLoaded` (`src/world.cpp:176`).  Outer `none` models a
coordinate-conversion assert firing; `some none` means the containing chunk
is not resident; `some (some b)` is a successful read. -/
def getBlockIfLoaded (w : WorldChunks) (pos : BlockPos) : Option (Option Block) :=
  match toAbsoluteChunk pos with
  | none => none
  | some chunkPos =>
      match lookupChunk w chunkPos with
      | none => some none
      | some chunk =>
          match toChunkLocal pos chunkPos with
          | none => none
          | some localPos => some (some (chunk.getBlock localPos))

/-- `World::setBlockIfLoaded` (`src/world.cpp:202`).  `none` models an
assert firing; otherwise the flag is `false` iff the containing chunk is
not resident, and on `true` the chunk's cell has been written. -/
def setBlockIfLoaded (w : WorldChunks) (pos : BlockPos) (b : Block) :
    Option (Bool × WorldChunks) :=
  match toAbsoluteChunk pos with
  | none => none
  | some chunkPos =>
      match lookupChunk w chunkPos with
      | none => some (false, w)
      | some chunk =>
          match toChunkLocal pos chunkPos with
          | none => none
          | some localPos =>
              some (true, updateChunk w chunkPos (chunk.setBlock localPos b))

/-- C5: a successful `setBlockIfLoaded w p b` makes `getBlockIfLoaded p`
return `b`, and a subsequent write at any other position `q` (successful or
not) leaves the read at `p` unchanged — the value persists until another
write to `p` itself. -/
theorem claim_C5_place_then_get (p q : BlockPos) (b b2 : Block)
    (w w2 w3 : WorldChunks) (r : Bool)
    (hset : setBlockIfLoaded w p b = some (true, w2))
    (hq : q ≠ p)
    (hset2 : setBlockIfLoaded w2 q b2 = some (r, w3)) :
    getBlockIfLoaded w2 p = some (some b) ∧ getBlockIfLoaded w3 p = some (some b) := by
  unfold setBlockIfLoaded at hset
  -- dissect the successful first write
  split at hset
  case _ => exact absurd hset (by simp)
  case _ cp hcp =>
  split at hset
  case _ => simp at hset
  case _ chunk hch =>
  split at hset
  case _ => exact absurd hset (by simp)
  case _ lp hlp =>
  have hw2 : w2 = updateChunk w cp (chunk.setBlock lp b) := by
    have := Option.some.inj hset
    exact congrArg Prod.snd this |>.symm
  have hlook2 : lookupChunk w2 cp = some (chunk.setBlock lp b) := by
    rw [hw2]
    exact lookupChunk_updateChunk_same w cp _ (by rw [hch]; rfl)
  have hget2 : getBlockIfLoaded w2 p = some (some b) := by
    unfold getBlockIfLoaded
    simp only [hcp, hlook2, hlp, ChunkSpanM.getBlock, ChunkSpanM.setBlock]
    simp [Function.update_same]
  refine ⟨hget2, ?_⟩
  -- dissect the second write
  unfold setBlockIfLoaded at hset2
  split at hset2
  case _ => exact absurd hset2 (by simp)
  case _ cq hcq =>
  split at hset2
  case _ =>
    have hw3 : w3 = w2 := by
      have := Option.some.inj hset2
      exact congrArg Prod.snd this |>.symm
    rw [hw3]
    exact hget2
  case _ chunk2 hchq =>
  split at hset2
  case _ => exact absurd hset2 (by simp)
  case _ lq hlq =>
  have hw3 : w3 = updateChunk w2 cq (chunk2.setBlock lq b2) := by
    have := Option.some.inj hset2
    exact congrArg Prod.snd this |>.symm
  by_cases hcc : cp = cq
  · -- same chunk: the two writes hit different cells
    subst hcc
    have hchunk2 : chunk2 = chunk.setBlock lp b := by
      rw [hlook2] at hchq
      exact (Option.some.inj hchq).symm
    have hll : lp ≠ lq := by
      intro heq
      exact hq (block_decomposition_inj hlq hlp heq.symm)
    have hlook3 : lookupChunk w3 cp = some (chunk2.setBlock lq b2) := by
      rw [hw3]
      exact lookupChunk_updateChunk_same w2 cp _ (by rw [hlook2]; rfl)
    unfold getBlockIfLoaded
    simp only [hcp, hlook3, hlp, ChunkSpanM.getBlock, ChunkSpanM.setBlock]
    rw [hchunk2]
    unfold ChunkSpanM.setBlock
    simp only
    rw [Function.update_noteq (fun hx => hll (LocalPos.index_inj hx)),
      Function.update_same]
  · -- different chunk: the lookup at cp is untouched
    have hlook3 : lookupChunk w3 cp = some (chunk.setBlock lp b) := by
      rw [hw3, lookupChunk_updateChunk_ne w2 cq cp _ hcc]
      exact hlook2
    unfold getBlockIfLoaded
    simp only [hcp, hlook3, hlp, ChunkSpanM.getBlock, ChunkSpanM.setBlock]
    simp [Function.update_same]

/-- An all-`Empty` chunk span at the origin chunk. -/
def emptySpan : ChunkSpanM := ⟨⟨0, 0, 0⟩, fun _ => Block.Empty⟩

/-- A world with the single resident chunk `(0,0,0)`. -/
def w0 : WorldChunks := [(⟨0, 0, 0⟩, emptySpan)]

/-- The world after writing `Stone` at `(1,2,3)` in `w0`. -/
def w0a : WorldChunks :=
  match setBlockIfLoaded w0 ⟨1, 2, 3⟩ Block.Stone with
  | some (_, w) => w
  | none => w0

/-- The world after additionally writing `Dirt` at `(4,5,6)` in `w0a`. -/
def w0b : WorldChunks :=
  match setBlockIfLoaded w0a ⟨4, 5, 6⟩ Block.Dirt with
  | some (_, w) => w
  | none => w0a

/-- Concrete instance of C5: place `Stone` at `(1,2,3)`, then place `Dirt`
at `(4,5,6)`; the read at `(1,2,3)` returns `Stone` both times. -/
theorem claim_C5_witness :
    setBlockIfLoaded w0 ⟨1, 2, 3⟩ Block.Stone = some (true, w0a) ∧
    ((⟨4, 5, 6⟩ : BlockPos) ≠ ⟨1, 2, 3⟩) ∧
    setBlockIfLoaded w0a ⟨4, 5, 6⟩ Block.Dirt = some (true, w0b) ∧
    (getBlockIfLoaded w0a ⟨1, 2, 3⟩ = some (some Block.Stone) ∧
     getBlockIfLoaded w0b ⟨1, 2, 3⟩ = some (some Block.Stone)) :=
  ⟨rfl, by decide, rfl,
    claim_C5_place_then_get ⟨1, 2, 3⟩ ⟨4, 5, 6⟩ Block.Stone Block.Dirt
      w0 w0a w0b true rfl (by decide) rfl⟩

/-- `SESSION_TIMEOUT` (`src/player_session.h:31`), in clock units (seconds
in the source). -/
def SESSION_TIMEOUT : Nat := 5

/-- `PlayerSession` (`src/player_session.h:13`): token, player name and
last-refresh timestamp.  Timestamps are abstract monotone clock readings
(`steady_clock`); the entity handle and the floating-point position are
not relevant to the session-lifetime claims and are elided. -/
structure PlayerSessionM where
  sessionToken : String
  playerName : String
  lastRefresh : Nat
deriving DecidableEq, Repr

/-- The session table `activeSessions_` (`src/player_session.h:52`), as an
association list keyed by token. -/
def SessionMap := List (String × PlayerSessionM)

/-- `activeSessions_.find(token)` (`src/player_session.cpp:39`). -/
def lookupSession (m : SessionMap) (token : String) : Option PlayerSessionM :=
  (m.find? (fun e => decide (e.1 = token))).map Prod.snd

/-- `PlayerSessionManager::refreshSession` (`src/player_session.cpp:36`):
when the token is present — whether or not it has expired — stamp
`lastRefresh` with `now` and return `true`; otherwise return `false` and
leave the table unchanged. -/
def refreshSession (m : SessionMap) (now : Nat) (token : String) : Bool × SessionMap :=
  if (m.find? (fun e => decide (e.1 = token))).isSome then
    (true, m.map (fun e =>
      if e.1 = token then (e.1, ⟨e.2.sessionToken, e.2.playerName, now⟩) else e))
  else (false, m)

/-- `PlayerSessionManager::isValidSession` (`src/player_session.cpp:60`):
the token is present and `now - lastRefresh < SESSION_TIMEOUT`. -/
def isValidSession (m : SessionMap) (now : Nat) (token : String) : Bool :=
  match lookupSession m token with
  | none => false
  | some s => decide (now - s.lastRefresh < SESSION_TIMEOUT)

theorem lookupSession_cons (k : String) (v : PlayerSessionM) (rest : SessionMap)
    (token : String) :
    lookupSession ((k, v) :: rest) token =
      if k = token then some v else lookupSession rest token := by
  unfold lookupSession
  by_cases he : k = token
  · rw [List.find?_cons_of_pos _ (by simpa using he), if_pos he]
    rfl
  · rw [List.find?_cons_of_neg _ (by simpa using he), if_neg he]

/-- Lookup after the key-preserving per-entry update used by
`refreshSession`. -/
theorem lookupSession_map_update (m : SessionMap) (token : String)
    (g : PlayerSessionM → PlayerSessionM) (t2 : String) :
    lookupSession (m.map (fun e => if e.1 = token then (e.1, g e.2) else e)) t2 =
      if t2 = token then (lookupSession m t2).map g else lookupSession m t2 := by
  induction m with
  | nil => by_cases ht : t2 = token <;> simp [lookupSession, ht]
  | cons e rest ih =>
    obtain ⟨k, v⟩ := e
    show lookupSession ((if k = token then (k, g v) else (k, v)) :: _) t2 = _
    by_cases hk : k = token
    · rw [if_pos hk]
      by_cases ht : t2 = token
      · have hkt : k = t2 := by rw [hk, ht]
        rw [lookupSession_cons, if_pos hkt, if_pos ht, lookupSession_cons, if_pos hkt]
        rfl
      · have hkt : ¬ (k = t2) := fun hx => ht (by rw [← hx]; exact hk)
        rw [lookupSession_cons, if_neg hkt, ih, if_neg ht,
          lookupSession_cons, if_neg hkt, if_neg ht]
    · rw [if_neg hk]
      by_cases hkt : k = t2
      · have ht : ¬ (t2 = token) := fun hx => hk (by rw [hkt, hx])
        rw [lookupSession_cons, if_pos hkt, if_neg ht, lookupSession_cons, if_pos hkt]
      · rw [lookupSession_cons, if_neg hkt, ih, lookupSession_cons, if_neg hkt]

/-- C6 fails as stated: the session `"t"` last refreshed at time 0 has
expired by time 10 (`isValidSession` is false, `10 - 0 ≥ SESSION_TIMEOUT`),
yet `refreshSession` still returns `true` — it checks only presence, not
expiry, and resurrects the expired session. -/
theorem claim_C6_counterexample :
    (refreshSession [("t", ⟨"t", "p", 0⟩)] 10 "t").1 = true ∧
    isValidSession [("t", ⟨"t", "p", 0⟩)] 10 "t" = false ∧
    SESSION_TIMEOUT ≤ 10 - 0 :=
  ⟨rfl, rfl, by decide⟩

/-- C6 (amended): `refreshSession` returns `true` iff the token is present
in the active table — expired or not (an expired session only disappears
once the periodic cleanup removes it).  When present, exactly that
session's `last_refresh` is set to `now` and every other entry is
untouched; when absent, the table is returned unchanged. -/
theorem claim_C6_refresh_semantics (m : SessionMap) (now : Nat) (token : String) :
    (refreshSession m now token).1 = (lookupSession m token).isSome ∧
    (∀ t2 : String, lookupSession (refreshSession m now token).2 t2 =
      if (lookupSession m token).isSome = true ∧ t2 = token
      then (lookupSession m t2).map
        (fun s => (⟨s.sessionToken, s.playerName, now⟩ : PlayerSessionM))
      else lookupSession m t2) := by
  have hiso : (lookupSession m token).isSome
      = (m.find? (fun e => decide (e.1 = token))).isSome := by
    unfold lookupSession
    exact Option.isSome_map ..
  unfold refreshSession
  by_cases hs : (m.find? (fun e => decide (e.1 = token))).isSome
  · rw [if_pos hs]
    refine ⟨by rw [hiso, hs], fun t2 => ?_⟩
    have hupd := lookupSession_map_update m token
      (fun s => (⟨s.sessionToken, s.playerName, now⟩ : PlayerSessionM)) t2
    refine hupd.trans ?_
    by_cases ht : t2 = token
    · rw [if_pos ht, if_pos ⟨by rw [hiso, hs], ht⟩]
    · rw [if_neg ht, if_neg (fun hand => ht hand.2)]
  · rw [if_neg hs]
    have hfalse : (m.find? (fun e => decide (e.1 = token))).isSome = false := by
      cases hh : (m.find? (fun e => decide (e.1 = token))).isSome
      · rfl
      · exact absurd hh hs
    refine ⟨by rw [hiso, hfalse], fun t2 => ?_⟩
    rw [if_neg fun hand => by
      have h1 := hand.1
      rw [hiso, hfalse] at h1
      exact Bool.false_ne_true h1]

/-- `PlaceBlockRequest` (`blockserver` wire type): block position plus the
`u32` block type. -/
structure PlaceBlockRequestM where
  pos : BlockPos
  blockType : Nat
deriving DecidableEq, Repr

/-- The `{success, error_message}` part shared by the RPC responses. -/
structure RpcStatusM where
  success : Bool
  errorMessage : String
deriving DecidableEq, Repr

/-- `static_cast<Block>(request->block_type())` (`src/server.cpp:173`):
the `u32` wire value truncates to the `u8`-backed enum. -/
def castBlock (blockType : Nat) : Block :=
  ⟨blockType % 256, Nat.mod_lt _ (by norm_num)⟩

/-- `Server::PlaceBlock` (`src/server.cpp:162`): try
`World::setBlockIfLoaded`; on success mark the chunk dirty and answer
`ok`; otherwise answer `success=false` with `"Chunk not loaded"`.
Returns `(response, world, dirty-set)`; `none` models a coordinate assert
firing. -/
def placeBlockHandler (w : WorldChunks) (dirty : List ChunkPos)
    (req : PlaceBlockRequestM) :
    Option (RpcStatusM × WorldChunks × List ChunkPos) :=
  match setBlockIfLoaded w req.pos (castBlock req.blockType) with
  | none => none
  | some (success, w2) =>
      if success then
        match toAbsoluteChunk req.pos with
        | none => none
        | some chunkPos => some (⟨true, ""⟩, w2, markChunkUpdated dirty chunkPos)
      else some (⟨false, "Chunk not loaded"⟩, w2, dirty)

/-- `Server::BreakBlock` (`src/server.cpp:198`): build a `PlaceBlockRequest`
with block type `Block::Empty` at the same position, run the `PlaceBlock`
handler, and copy its success flag and error message into the
`BreakBlockResponse`. -/
def breakBlockHandler (w : WorldChunks) (dirty : List ChunkPos) (pos : BlockPos) :
    Option (RpcStatusM × WorldChunks × List ChunkPos) :=
  match placeBlockHandler w dirty ⟨pos, (Block.Empty : Block).val⟩ with
  | none => none
  | some (st, w2, d2) => some (⟨st.success, st.errorMessage⟩, w2, d2)

/-- `Server::GetBlockAt` (`src/server.cpp:220`): always `success=true`;
when the containing chunk is not resident the response carries
`Block::Empty` instead of an error. -/
def getBlockAtHandler (w : WorldChunks) (pos : BlockPos) :
    Option (RpcStatusM × Nat) :=
  match getBlockIfLoaded w pos with
  | none => none
  | some none => some (⟨true, ""⟩, (Block.Empty : Block).val)
  | some (some b) => some (⟨true, ""⟩, b.val)

/-- C7 fails as stated for the read path: with an empty world (no chunk
resident anywhere), `GetBlockAt` still answers `success=true`, carrying
`Block::Empty` — reads of non-resident chunks are not surfaced as
`ok=false`. -/
theorem claim_C7_counterexample :
    lookupChunk [] ⟨0, 0, 0⟩ = none ∧
    getBlockAtHandler [] ⟨0, 0, 0⟩ = some (⟨true, ""⟩, 0) :=
  ⟨rfl, rfl⟩

/-- C7 (amended): when the containing chunk is not resident, the write
operations `PlaceBlock` and `BreakBlock` answer `success=false` with the
error message `"Chunk not loaded"` and leave the world and the dirty set
unchanged, while the read operation `GetBlockAt` answers `success=true`
with block `Empty`. -/
theorem claim_C7_chunk_not_resident (w : WorldChunks) (dirty : List ChunkPos)
    (pos : BlockPos) (bt : Nat) (c : ChunkPos)
    (hc : toAbsoluteChunk pos = some c) (habs : lookupChunk w c = none) :
    placeBlockHandler w dirty ⟨pos, bt⟩ = some (⟨false, "Chunk not loaded"⟩, w, dirty) ∧
    breakBlockHandler w dirty pos = some (⟨false, "Chunk not loaded"⟩, w, dirty) ∧
    getBlockAtHandler w pos = some (⟨true, ""⟩, (Block.Empty : Block).val) := by
  have hset : ∀ b : Block, setBlockIfLoaded w pos b = some (false, w) := by
    intro b
    unfold setBlockIfLoaded
    rw [hc]
    simp only [habs]
  have hplace : ∀ btv : Nat, placeBlockHandler w dirty ⟨pos, btv⟩ =
      some (⟨false, "Chunk not loaded"⟩, w, dirty) := by
    intro btv
    unfold placeBlockHandler
    simp only [hset]
    rfl
  refine ⟨hplace bt, ?_, ?_⟩
  · unfold breakBlockHandler
    rw [hplace]
  · unfold getBlockAtHandler getBlockIfLoaded
    rw [hc]
    simp only [habs]

/-- Concrete instance of C7 (amended) on the empty world. -/
theorem claim_C7_witness :
    toAbsoluteChunk ⟨0, 0, 0⟩ = some ⟨0, 0, 0⟩ ∧
    lookupChunk [] ⟨0, 0, 0⟩ = none ∧
    (placeBlockHandler [] [] ⟨⟨0, 0, 0⟩, 3⟩
        = some (⟨false, "Chunk not loaded"⟩, [], []) ∧
     breakBlockHandler [] [] ⟨0, 0, 0⟩
        = some (⟨false, "Chunk not loaded"⟩, [], []) ∧
     getBlockAtHandler [] ⟨0, 0, 0⟩ = some (⟨true, ""⟩, (Block.Empty : Block).val)) :=
  ⟨by decide, rfl,
    claim_C7_chunk_not_resident [] [] ⟨0, 0, 0⟩ 3 ⟨0, 0, 0⟩ (by decide) rfl⟩

/-- The client's chunk cache `cachedChunks_` (`src/client.h:112`), as an
association list. -/
def ClientCache := List (ChunkPos × ChunkSpanM)

/-- `Client::placeBlock` (`src/client.cpp:537`): send a `PlaceBlock` RPC
carrying `static_cast<uint32_t>(block)`; on a successful response also
write the block into the locally cached chunk, if present.  Returns the
boolean result together with the server world, the server dirty set and
the client cache; `none` models a coordinate assert firing on either
side. -/
def clientPlaceBlock (w : WorldChunks) (dirty : List ChunkPos) (cache : ClientCache)
    (pos : BlockPos) (b : Block) :
    Option (Bool × WorldChunks × List ChunkPos × ClientCache) :=
  match placeBlockHandler w dirty ⟨pos, b.val⟩ with
  | none => none
  | some (st, w2, d2) =>
      if st.success then
        match toAbsoluteChunk pos with
        | none => none
        | some chunkPos =>
            match lookupChunk cache chunkPos with
            | none => some (true, w2, d2, cache)
            | some cached =>
                match toChunkLocal pos chunkPos with
                | none => none
                | some localPos =>
                    some (true, w2, d2,
                      updateChunk cache chunkPos (cached.setBlock localPos b))
      else some (false, w2, d2, cache)

/-- `Client::breakBlock` (`src/client.cpp:581`): literally
`placeBlock(pos, Block::Empty)`. -/
def clientBreakBlock (w : WorldChunks) (dirty : List ChunkPos) (cache : ClientCache)
    (pos : BlockPos) :
    Option (Bool × WorldChunks × List ChunkPos × ClientCache) :=
  clientPlaceBlock w dirty cache pos Block.Empty

/-- C10: `BreakBlock` is observationally identical to `PlaceBlock` at the
same position with block type `Empty` — the server handler produces the
same success flag, error message, world and dirty set, and the client's
`breakBlock` is exactly `placeBlock(pos, Empty)`. -/
theorem claim_C10_break_is_place_empty (w : WorldChunks) (dirty : List ChunkPos)
    (cache : ClientCache) (pos : BlockPos) :
    breakBlockHandler w dirty pos =
      placeBlockHandler w dirty ⟨pos, (Block.Empty : Block).val⟩ ∧
    clientBreakBlock w dirty cache pos =
      clientPlaceBlock w dirty cache pos Block.Empty := by
  refine ⟨?_, rfl⟩
  unfold breakBlockHandler
  cases h : placeBlockHandler w dirty ⟨pos, (Block.Empty : Block).val⟩ with
  | none => rfl
  | some res =>
      obtain ⟨st, w2, d2⟩ := res
      rfl

/-- `Client::kMaxInflightRequests` (`src/client.h:92`). -/
def kMaxInflightRequests : Nat := 64

/-- The client's asynchronous request state (`src/client.h:112`–`121`):
the already-requested set `requestedChunks_`, the in-flight table
`pending_calls_` (keyed in the source by call tag; represented by the list
of in-flight chunk positions), the FIFO backlog `requestBacklog_`, and the
key set of the chunk cache `cachedChunks_`.  (The cache's size-capped trim
on insert only removes keys and does not affect these claims.) -/
structure ClientReqState where
  requested : List ChunkPos
  inflight : List ChunkPos
  backlog : List ChunkPos
  cache : List ChunkPos

/-- `Client::requestChunkAsync` (`src/client.cpp:346`): return immediately
when the position was already requested; otherwise record it, and either
append it to the backlog tail (in-flight table saturated) or issue the
call (add to the in-flight table). -/
def requestChunkAsync (s : ClientReqState) (pos : ChunkPos) : ClientReqState :=
  if pos ∈ s.requested then s
  else
    let s2 := { s with requested := pos :: s.requested }
    if kMaxInflightRequests ≤ s2.inflight.length then
      { s2 with backlog := s2.backlog ++ [pos] }
    else
      { s2 with inflight := pos :: s2.inflight }

/-- The backlog drain loop shared by `Client::processPendingRequests`
(`src/client.cpp:476`) and the completion thread (`src/client.cpp:842`):
while the backlog is nonempty and the in-flight table has room, pop the
head; a position cached meanwhile is dropped (erasing it from the
requested set), anything else is issued.  Returns
`(in-flight, backlog, requested)`. -/
def drainBacklog (cache : List ChunkPos) (inflight : List ChunkPos)
    (backlog : List ChunkPos) (requested : List ChunkPos) :
    List ChunkPos × List ChunkPos × List ChunkPos :=
  match backlog with
  | [] => (inflight, [], requested)
  | next :: rest =>
      if kMaxInflightRequests ≤ inflight.length then (inflight, next :: rest, requested)
      else if next ∈ cache then drainBacklog cache inflight rest (requested.erase next)
      else drainBacklog cache (next :: inflight) rest requested

/-- Completion handling (`src/client.cpp:414`–`src/client.cpp:513`): take
the completed call out of the in-flight table, cache the chunk on success,
remove the position from the requested set, then drain the backlog into
the free in-flight slots. -/
def completeRequest (s : ClientReqState) (pos : ChunkPos) (success : Bool) :
    ClientReqState :=
  let inflight := s.inflight.erase pos
  let cache := if success then insertChunkPos s.cache pos else s.cache
  let requested := s.requested.erase pos
  match drainBacklog cache inflight s.backlog requested with
  | (inflight2, backlog2, requested2) =>
      { requested := requested2, inflight := inflight2,
        backlog := backlog2, cache := cache }

/-- Structure of one drain: some prefix `P` of the backlog is consumed in
FIFO order, its not-yet-cached members are issued (newest first on the
in-flight list), the rest of the backlog is untouched, and the in-flight
table never exceeds the cap. -/
theorem drainBacklog_spec (cache : List ChunkPos) (inflight : List ChunkPos)
    (backlog : List ChunkPos) (requested : List ChunkPos)
    (hcap : inflight.length ≤ kMaxInflightRequests) :
    ∃ P,
      backlog = P ++ (drainBacklog cache inflight backlog requested).2.1 ∧
      (drainBacklog cache inflight backlog requested).1 =
        (P.filter (fun c => !decide (c ∈ cache))).reverse ++ inflight ∧
      (drainBacklog cache inflight backlog requested).1.length ≤ kMaxInflightRequests := by
  induction backlog generalizing inflight requested with
  | nil => exact ⟨[], rfl, rfl, hcap⟩
  | cons next rest ih =>
    by_cases hfull : kMaxInflightRequests ≤ inflight.length
    · have hstep : drainBacklog cache inflight (next :: rest) requested
          = (inflight, next :: rest, requested) := by
        conv_lhs => unfold drainBacklog
        rw [if_pos hfull]
      rw [hstep]
      exact ⟨[], rfl, rfl, hcap⟩
    · by_cases hcache : next ∈ cache
      · have hstep : drainBacklog cache inflight (next :: rest) requested
            = drainBacklog cache inflight rest (requested.erase next) := by
          conv_lhs => unfold drainBacklog
          rw [if_neg hfull, if_pos hcache]
        rw [hstep]
        obtain ⟨P, h1, h2, h3⟩ := ih inflight (requested.erase next) hcap
        refine ⟨next :: P, congrArg (next :: ·) h1, ?_, h3⟩
        rw [List.filter_cons_of_neg (by simpa using hcache)]
        exact h2
      · have hcap2 : (next :: inflight).length ≤ kMaxInflightRequests := by
          simp only [List.length_cons]
          omega
        have hstep : drainBacklog cache inflight (next :: rest) requested
            = drainBacklog cache (next :: inflight) rest requested := by
          conv_lhs => unfold drainBacklog
          rw [if_neg hfull, if_neg hcache]
        rw [hstep]
        obtain ⟨P, h1, h2, h3⟩ := ih (next :: inflight) requested hcap2
        refine ⟨next :: P, congrArg (next :: ·) h1, ?_, h3⟩
        rw [List.filter_cons_of_pos (by simpa using hcache), List.reverse_cons,
          List.append_assoc]
        exact h2

/-- C9: the number of in-flight `GetChunk` calls never exceeds
`kMaxInflightRequests` (64): both issuing a request and completing one
preserve the cap; a request arriving while the table is saturated is
appended to the backlog tail with the in-flight table untouched; and a
completion drains the backlog in FIFO order — a prefix is consumed, its
not-yet-cached members become the newly issued calls. -/
theorem claim_C9_inflight_cap (s : ClientReqState) (pos : ChunkPos) (ok : Bool)
    (hcap : s.inflight.length ≤ kMaxInflightRequests) :
    (requestChunkAsync s pos).inflight.length ≤ kMaxInflightRequests ∧
    (pos ∉ s.requested → kMaxInflightRequests ≤ s.inflight.length →
      (requestChunkAsync s pos).backlog = s.backlog ++ [pos] ∧
      (requestChunkAsync s pos).inflight = s.inflight) ∧
    (completeRequest s pos ok).inflight.length ≤ kMaxInflightRequests ∧
    (∃ P, s.backlog = P ++ (completeRequest s pos ok).backlog ∧
      (completeRequest s pos ok).inflight =
        (P.filter (fun c => !decide (c ∈ (completeRequest s pos ok).cache))).reverse ++
          s.inflight.erase pos) := by
  have hcapErase : (s.inflight.erase pos).length ≤ kMaxInflightRequests :=
    le_trans (List.length_erase_le ..) hcap
  obtain ⟨P, h1, h2, h3⟩ := drainBacklog_spec
    (if ok then insertChunkPos s.cache pos else s.cache)
    (s.inflight.erase pos) s.backlog (s.requested.erase pos) hcapErase
  refine ⟨?_, ?_, ?_, ?_⟩
  · unfold requestChunkAsync
    by_cases hreq : pos ∈ s.requested
    · rw [if_pos hreq]
      exact hcap
    · rw [if_neg hreq]
      by_cases hfull : kMaxInflightRequests ≤ s.inflight.length
      · rw [if_pos hfull]
        exact hcap
      · rw [if_neg hfull]
        simp only [List.length_cons]
        omega
  · intro hreq hfull
    unfold requestChunkAsync
    rw [if_neg hreq, if_pos hfull]
    exact ⟨rfl, rfl⟩
  · unfold completeRequest
    exact h3
  · exact ⟨P, h1, h2⟩

/-- A saturated client state: 64 distinct in-flight requests, nothing
requested, backlogged or cached. -/
def s64 : ClientReqState :=
  ⟨[], (List.range 64).map (fun i => (⟨(i : Int), 0, 0⟩ : ChunkPos)), [], []⟩

/-- Concrete instance of C9 at the saturated state `s64`: a new request
for chunk `(100,0,0)` is appended to the backlog and the in-flight table
is untouched. -/
theorem claim_C9_witness :
    s64.inflight.length ≤ kMaxInflightRequests ∧
    ((requestChunkAsync s64 ⟨100, 0, 0⟩).inflight.length ≤ kMaxInflightRequests ∧
     ((⟨100, 0, 0⟩ : ChunkPos) ∉ s64.requested →
      kMaxInflightRequests ≤ s64.inflight.length →
      (requestChunkAsync s64 ⟨100, 0, 0⟩).backlog = s64.backlog ++ [⟨100, 0, 0⟩] ∧
      (requestChunkAsync s64 ⟨100, 0, 0⟩).inflight = s64.inflight) ∧
     (completeRequest s64 ⟨100, 0, 0⟩ true).inflight.length ≤ kMaxInflightRequests ∧
     (∃ P, s64.backlog = P ++ (completeRequest s64 ⟨100, 0, 0⟩ true).backlog ∧
      (completeRequest s64 ⟨100, 0, 0⟩ true).inflight =
        (P.filter (fun c =>
          !decide (c ∈ (completeRequest s64 ⟨100, 0, 0⟩ true).cache))).reverse ++
          s64.inflight.erase ⟨100, 0, 0⟩)) :=
  ⟨by decide, claim_C9_inflight_cap s64 ⟨100, 0, 0⟩ true (by decide)⟩

/-- A serialized byte (`uint8_t`). -/
abbrev Byte := Fin 256

/-- Little-endian `uint32_t` byte encoding (matches the raw bytes of
`reinterpret_cast<uint8_t*>(&v)` in `src/chunkspan.cpp` and
`write_u32_le` in `src/statefulchunkoverlay.cpp:16`). -/
def u32Bytes (v : Nat) : List Byte :=
  [⟨v % 256, Nat.mod_lt _ (by norm_num)⟩,
   ⟨v / 256 % 256, Nat.mod_lt _ (by norm_num)⟩,
   ⟨v / 2 ^ 16 % 256, Nat.mod_lt _ (by norm_num)⟩,
   ⟨v / 2 ^ 24 % 256, Nat.mod_lt _ (by norm_num)⟩]

/-- Little-endian `uint32_t` byte decoding (`read_u32_le`,
`src/statefulchunkoverlay.cpp:26`, and `memcpy` into a `uint32_t`). -/
def decodeU32 (b0 b1 b2 b3 : Byte) : Nat :=
  b0.val + 256 * b1.val + 2 ^ 16 * b2.val + 2 ^ 24 * b3.val

theorem decodeU32_u32Bytes (v : Nat) (h : v < 2 ^ 32) :
    (u32Bytes v).length = 4 ∧
    ∀ b0 b1 b2 b3, u32Bytes v = [b0, b1, b2, b3] → decodeU32 b0 b1 b2 b3 = v := by
  refine ⟨rfl, ?_⟩
  intro b0 b1 b2 b3 heq
  unfold u32Bytes at heq
  obtain ⟨h0, h1, h2, h3⟩ : b0.val = v % 256 ∧ b1.val = v / 256 % 256 ∧
      b2.val = v / 2 ^ 16 % 256 ∧ b3.val = v / 2 ^ 24 % 256 := by
    cases heq
    exact ⟨rfl, rfl, rfl, rfl⟩
  unfold decodeU32
  omega

/-- Direct form of the `u32` round trip. -/
theorem decodeU32_u32Bytes' (v : Nat) (h : v < 2 ^ 32) :
    decodeU32 (⟨v % 256, Nat.mod_lt _ (by norm_num)⟩)
      (⟨v / 256 % 256, Nat.mod_lt _ (by norm_num)⟩)
      (⟨v / 2 ^ 16 % 256, Nat.mod_lt _ (by norm_num)⟩)
      (⟨v / 2 ^ 24 % 256, Nat.mod_lt _ (by norm_num)⟩) = v := by
  unfold decodeU32
  simp only
  omega

/-- The four raw bytes of an `int32_t` (two's complement, little-endian):
the bytes of the unsigned value `v mod 2³²`. -/
def i32Bytes (v : Int) : List Byte := u32Bytes (v % 2 ^ 32).toNat

/-- Reading four bytes back as an `int32_t`. -/
def decodeI32 (b0 b1 b2 b3 : Byte) : Int :=
  if decodeU32 b0 b1 b2 b3 < 2 ^ 31 then (decodeU32 b0 b1 b2 b3 : Int)
  else (decodeU32 b0 b1 b2 b3 : Int) - 2 ^ 32

/-- Little-endian `uint16_t` byte encoding (`write_u16_le`,
`src/statefulchunkoverlay.cpp:12`). -/
def u16Bytes (v : Nat) : List Byte :=
  [⟨v % 256, Nat.mod_lt _ (by norm_num)⟩,
   ⟨v / 256 % 256, Nat.mod_lt _ (by norm_num)⟩]

/-- `read_u16_le` (`src/statefulchunkoverlay.cpp:22`). -/
def decodeU16 (b0 b1 : Byte) : Nat := b0.val + 256 * b1.val

/-- `CHUNKSPAN_SPARSE_SERIALIZATION_VERSION` (`src/chunkspan.cpp:7`). -/
def CHUNKSPAN_SPARSE_SERIALIZATION_VERSION : Byte := 1

/-- The `(index, value)` pairs of the non-`Empty` cells, in ascending
index order — the order of the serializer's scan over `storage`
(`src/chunkspan.cpp:31`). -/
def nonEmptyEntries (storage : Fin CHUNK_BLOCK_COUNT → Block) :
    List (Fin CHUNK_BLOCK_COUNT × Block) :=
  (List.finRange CHUNK_BLOCK_COUNT).filterMap
    (fun i => if storage i ≠ Block.Empty then some (i, storage i) else none)

/-- Byte stream of a run of `(u32 index, u8 value)` entries. -/
def encodeEntries (es : List (Fin CHUNK_BLOCK_COUNT × Block)) : List Byte :=
  es.flatMap (fun e => u32Bytes e.1.val ++ [e.2])

/-- `ChunkSpan::serialize` (`src/chunkspan.cpp:12`): version byte, the
three `int32_t` position coordinates, the `uint32_t` non-empty count,
then one `(u32 index, u8 value)` pair per non-`Empty` cell in index
order. -/
def ChunkSpanM.serialize (buf : ChunkSpanM) : List Byte :=
  CHUNKSPAN_SPARSE_SERIALIZATION_VERSION ::
    (i32Bytes buf.position.x ++ i32Bytes buf.position.y ++ i32Bytes buf.position.z ++
     u32Bytes (nonEmptyEntries buf.storage).length ++
     encodeEntries (nonEmptyEntries buf.storage))

/-- The deserializer's entry loop (`src/chunkspan.cpp:66`): read `count`
`(u32 index, u8 value)` pairs, writing each into the storage; an index
at or beyond `CHUNK_BLOCK_COUNT` or truncated data is an error
(`none` models the `throw`). -/
def parseEntries (count : Nat) (data : List Byte)
    (storage : Fin CHUNK_BLOCK_COUNT → Block) :
    Option (Fin CHUNK_BLOCK_COUNT → Block) :=
  match count with
  | 0 => some storage
  | c + 1 =>
      match data with
      | i0 :: i1 :: i2 :: i3 :: val :: rest =>
          if h : decodeU32 i0 i1 i2 i3 < CHUNK_BLOCK_COUNT then
            parseEntries c rest (Function.update storage ⟨decodeU32 i0 i1 i2 i3, h⟩ val)
          else none
      | _ => none

/-- `ChunkSpan::ChunkSpan(ChunkSerializationSparseVector&)`
(`src/chunkspan.cpp:42`): check the version byte, read the position and
the count, fill the storage with `Empty` and apply the entries; any
truncation, version mismatch or out-of-range index is an error.  Trailing
bytes after the last entry are ignored, as in the source. -/
def ChunkSpanM.deserialize (data : List Byte) : Option ChunkSpanM :=
  match data with
  | v :: x0 :: x1 :: x2 :: x3 :: y0 :: y1 :: y2 :: y3 ::
      z0 :: z1 :: z2 :: z3 :: c0 :: c1 :: c2 :: c3 :: rest =>
      if v = CHUNKSPAN_SPARSE_SERIALIZATION_VERSION then
        match parseEntries (decodeU32 c0 c1 c2 c3) rest (fun _ => Block.Empty) with
        | none => none
        | some storage =>
            some ⟨⟨decodeI32 x0 x1 x2 x3, decodeI32 y0 y1 y2 y3, decodeI32 z0 z1 z2 z3⟩,
              storage⟩
      else none
  | _ => none

theorem decodeI32_i32Bytes (v : Int) (h1 : -(2 ^ 31) ≤ v) (h2 : v < 2 ^ 31) :
    ∀ b0 b1 b2 b3 : Byte, i32Bytes v = [b0, b1, b2, b3] →
      decodeI32 b0 b1 b2 b3 = v := by
  intro b0 b1 b2 b3 heq
  unfold i32Bytes at heq
  have hu : (v % 2 ^ 32).toNat < 2 ^ 32 := by omega
  have hdec := (decodeU32_u32Bytes (v % 2 ^ 32).toNat hu).2 b0 b1 b2 b3 heq
  unfold decodeI32
  rw [hdec]
  split <;> omega

theorem parseEntries_cons (i : Fin CHUNK_BLOCK_COUNT) (b : Block) (tail : List Byte)
    (c : Nat) (storage : Fin CHUNK_BLOCK_COUNT → Block) :
    parseEntries (c + 1) (u32Bytes i.val ++ b :: tail) storage =
      parseEntries c tail (Function.update storage i b) := by
  have hd := decodeU32_u32Bytes' i.val
    (lt_trans i.isLt (by norm_num [CHUNK_BLOCK_COUNT]))
  simp only [u32Bytes, List.cons_append, List.nil_append]
  conv_lhs => unfold parseEntries
  simp only [hd]
  rw [dif_pos i.isLt]

theorem parseEntries_encodeEntries (es : List (Fin CHUNK_BLOCK_COUNT × Block))
    (storage : Fin CHUNK_BLOCK_COUNT → Block) :
    parseEntries es.length (encodeEntries es) storage =
      some (es.foldl (fun f e => Function.update f e.1 e.2) storage) := by
  induction es generalizing storage with
  | nil => rfl
  | cons e rest ih =>
    obtain ⟨i, b⟩ := e
    have hflat : encodeEntries ((i, b) :: rest) =
        u32Bytes i.val ++ b :: encodeEntries rest := by
      unfold encodeEntries
      simp [List.flatMap_cons]
    rw [List.length_cons, hflat, parseEntries_cons, ih, List.foldl_cons]

theorem foldl_update_apply (es : List (Fin CHUNK_BLOCK_COUNT × Block))
    (init : Fin CHUNK_BLOCK_COUNT → Block) (j : Fin CHUNK_BLOCK_COUNT)
    (hnd : (es.map Prod.fst).Nodup) :
    es.foldl (fun f e => Function.update f e.1 e.2) init j =
      match es.find? (fun e => decide (e.1 = j)) with
      | some e => e.2
      | none => init j := by
  induction es generalizing init with
  | nil => rfl
  | cons e rest ih =>
    obtain ⟨k, v⟩ := e
    have hnd2 : (rest.map Prod.fst).Nodup := (List.nodup_cons.mp (by simpa using hnd)).2
    have hk : k ∉ rest.map Prod.fst := (List.nodup_cons.mp (by simpa using hnd)).1
    rw [List.foldl_cons, ih _ hnd2]
    by_cases hkj : k = j
    · subst hkj
      rw [List.find?_cons_of_pos _ (by simp)]
      have hnone : rest.find? (fun e => decide (e.1 = k)) = none := by
        rw [List.find?_eq_none]
        intro x hx
        simp only [decide_eq_true_eq]
        intro hxk
        exact hk (List.mem_map.mpr ⟨x, hx, hxk⟩)
      rw [hnone]
      simp [Function.update_same]
    · rw [List.find?_cons_of_neg _ (by simpa using hkj)]
      cases hf : rest.find? (fun e => decide (e.1 = j)) with
      | some e2 => rfl
      | none =>
        simp only
        exact Function.update_noteq (fun hx => hkj hx.symm) v init

theorem map_fst_filterMap_graph (l : List (Fin CHUNK_BLOCK_COUNT))
    (storage : Fin CHUNK_BLOCK_COUNT → Block) :
    ((l.filterMap
        (fun i => if storage i ≠ Block.Empty then some (i, storage i) else none)).map
      Prod.fst) = l.filter (fun i => decide (storage i ≠ Block.Empty)) := by
  induction l with
  | nil => rfl
  | cons i rest ih =>
    rw [List.filterMap_cons]
    by_cases hs : storage i ≠ Block.Empty
    · rw [if_pos hs, List.map_cons, ih, List.filter_cons_of_pos (by simpa using hs)]
    · rw [if_neg hs, ih, List.filter_cons_of_neg (by simpa using hs)]

theorem find?_filterMap_graph (l : List (Fin CHUNK_BLOCK_COUNT))
    (storage : Fin CHUNK_BLOCK_COUNT → Block) (j : Fin CHUNK_BLOCK_COUNT)
    (hnd : l.Nodup) (hj : j ∈ l) :
    ((l.filterMap
        (fun i => if storage i ≠ Block.Empty then some (i, storage i) else none)).find?
      (fun e => decide (e.1 = j))) =
      if storage j ≠ Block.Empty then some (j, storage j) else none := by
  induction l with
  | nil => cases hj
  | cons i rest ih =>
    have hnd2 : rest.Nodup := (List.nodup_cons.mp hnd).2
    rw [List.filterMap_cons]
    by_cases hij : i = j
    · subst hij
      have hjr : i ∉ rest := (List.nodup_cons.mp hnd).1
      have hnone : (rest.filterMap
          (fun a => if storage a ≠ Block.Empty then some (a, storage a) else none)).find?
            (fun e => decide (e.1 = i)) = none := by
        rw [List.find?_eq_none]
        intro x hx
        simp only [decide_eq_true_eq]
        intro hxj
        obtain ⟨a, ha, hfa⟩ := List.mem_filterMap.mp hx
        by_cases hsa : storage a ≠ Block.Empty
        · rw [if_pos hsa] at hfa
          cases hfa
          exact hjr (hxj ▸ ha)
        · rw [if_neg hsa] at hfa
          cases hfa
      by_cases hs : storage i ≠ Block.Empty
      · rw [if_pos hs, List.find?_cons_of_pos _ (by simp)]
      · rw [if_neg hs]
        exact hnone
    · have hjr : j ∈ rest := by
        rcases List.mem_cons.mp hj with hx | hx
        · exact absurd hx.symm hij
        · exact hx
      by_cases hs : storage i ≠ Block.Empty
      · rw [if_pos hs, List.find?_cons_of_neg _ (by simpa using hij)]
        exact ih hnd2 hjr
      · rw [if_neg hs]
        exact ih hnd2 hjr

theorem foldl_filterMap_graph (l : List (Fin CHUNK_BLOCK_COUNT))
    (storage : Fin CHUNK_BLOCK_COUNT → Block)
    (hnd : l.Nodup) (hmem : ∀ i : Fin CHUNK_BLOCK_COUNT, i ∈ l) :
    (l.filterMap
        (fun i => if storage i ≠ Block.Empty then some (i, storage i) else none)).foldl
      (fun f e => Function.update f e.1 e.2) (fun _ => Block.Empty) = storage := by
  funext j
  have hknd : ((l.filterMap (fun i =>
      if storage i ≠ Block.Empty then some (i, storage i) else none)).map
        Prod.fst).Nodup := by
    rw [map_fst_filterMap_graph]
    exact hnd.filter _
  rw [foldl_update_apply _ _ _ hknd]
  rw [find?_filterMap_graph l storage j hnd (hmem j)]
  by_cases hsj : storage j = Block.Empty
  · rw [if_neg (by simpa using hsj)]
    exact hsj.symm
  · rw [if_pos hsj]

theorem nonEmptyEntries_foldl (storage : Fin CHUNK_BLOCK_COUNT → Block) :
    (nonEmptyEntries storage).foldl (fun f e => Function.update f e.1 e.2)
      (fun _ => Block.Empty) = storage :=
  foldl_filterMap_graph (List.finRange CHUNK_BLOCK_COUNT) storage
    (List.nodup_finRange _) List.mem_finRange

theorem deserialize_wire (px py pz : Int)
    (hx : fitsI32 px) (hy : fitsI32 py) (hz : fitsI32 pz)
    (es : List (Fin CHUNK_BLOCK_COUNT × Block)) (hlen : es.length < 2 ^ 32) :
    ChunkSpanM.deserialize
      (CHUNKSPAN_SPARSE_SERIALIZATION_VERSION ::
        (i32Bytes px ++ i32Bytes py ++ i32Bytes pz ++
         u32Bytes es.length ++ encodeEntries es)) =
      some ⟨⟨px, py, pz⟩,
        es.foldl (fun f e => Function.update f e.1 e.2) (fun _ => Block.Empty)⟩ := by
  simp only [fitsI32] at hx hy hz
  have hdx : decodeI32
      ⟨(px % 2 ^ 32).toNat % 256, Nat.mod_lt _ (by norm_num)⟩
      ⟨(px % 2 ^ 32).toNat / 256 % 256, Nat.mod_lt _ (by norm_num)⟩
      ⟨(px % 2 ^ 32).toNat / 2 ^ 16 % 256, Nat.mod_lt _ (by norm_num)⟩
      ⟨(px % 2 ^ 32).toNat / 2 ^ 24 % 256, Nat.mod_lt _ (by norm_num)⟩ = px :=
    decodeI32_i32Bytes px (by omega) (by omega) _ _ _ _ rfl
  have hdy : decodeI32
      ⟨(py % 2 ^ 32).toNat % 256, Nat.mod_lt _ (by norm_num)⟩
      ⟨(py % 2 ^ 32).toNat / 256 % 256, Nat.mod_lt _ (by norm_num)⟩
      ⟨(py % 2 ^ 32).toNat / 2 ^ 16 % 256, Nat.mod_lt _ (by norm_num)⟩
      ⟨(py % 2 ^ 32).toNat / 2 ^ 24 % 256, Nat.mod_lt _ (by norm_num)⟩ = py :=
    decodeI32_i32Bytes py (by omega) (by omega) _ _ _ _ rfl
  have hdz : decodeI32
      ⟨(pz % 2 ^ 32).toNat % 256, Nat.mod_lt _ (by norm_num)⟩
      ⟨(pz % 2 ^ 32).toNat / 256 % 256, Nat.mod_lt _ (by norm_num)⟩
      ⟨(pz % 2 ^ 32).toNat / 2 ^ 16 % 256, Nat.mod_lt _ (by norm_num)⟩
      ⟨(pz % 2 ^ 32).toNat / 2 ^ 24 % 256, Nat.mod_lt _ (by norm_num)⟩ = pz :=
    decodeI32_i32Bytes pz (by omega) (by omega) _ _ _ _ rfl
  simp only [i32Bytes, u32Bytes, List.cons_append, List.nil_append, List.append_assoc]
  simp only [ChunkSpanM.deserialize]
  rw [if_pos trivial, decodeU32_u32Bytes' es.length hlen,
    parseEntries_encodeEntries, hdx, hdy, hdz]

/-- The version-byte-plus-coords codec round trip (`src/chunkspan.cpp`):
deserializing the serialized buffer reconstructs the position tag and the
full block array, provided the position coordinates are in `int32_t`
range — which the C++ field type guarantees. -/
theorem ChunkSpanM.deserialize_serialize (buf : ChunkSpanM)
    (hx : fitsI32 buf.position.x) (hy : fitsI32 buf.position.y)
    (hz : fitsI32 buf.position.z) :
    ChunkSpanM.deserialize buf.serialize = some buf := by
  obtain ⟨⟨px, py, pz⟩, storage⟩ := buf
  have hlen : (nonEmptyEntries storage).length < 2 ^ 32 := by
    have h1 : (nonEmptyEntries storage).length ≤ CHUNK_BLOCK_COUNT := by
      have := List.length_filterMap_le
        (fun i => if storage i ≠ Block.Empty then some (i, storage i) else none)
        (List.finRange CHUNK_BLOCK_COUNT)
      simpa [nonEmptyEntries, List.length_finRange] using this
    have h2 : CHUNK_BLOCK_COUNT < 2 ^ 32 := by norm_num [CHUNK_BLOCK_COUNT]
    omega
  have h := deserialize_wire px py pz hx hy hz (nonEmptyEntries storage) hlen
  rw [nonEmptyEntries_foldl] at h
  exact h

/-! ### `StatefulChunkOverlay` codec (`src/statefulchunkoverlay.cpp`) -/

/-- The overlay's sparse block map `blocks_`
(`std::unordered_map<uint32_t, Block>`, `src/statefulchunkoverlay.h:37`),
as an association list with the `uint32_t` keys widened to `Nat`. -/
abbrev OverlayMap := List (Nat × Block)

/-- `blocks_.find(key)` (`src/statefulchunkoverlay.cpp:46,89`). -/
def lookupOverlay (m : OverlayMap) (k : Nat) : Option Block :=
  (m.find? (fun e => decide (e.1 = k))).map Prod.snd

/-- The serializer's stable ordering: all map keys, sorted ascending
(`std::sort`, `src/statefulchunkoverlay.cpp:67`). -/
def overlaySortedKeys (m : OverlayMap) : List Nat :=
  (m.map Prod.fst).mergeSort (fun a b => decide (a ≤ b))

/-- One iteration of the serializer's entry loop
(`src/statefulchunkoverlay.cpp:88`): the entry found in the map for a
key, skipping absent keys and `Empty` values defensively. -/
def ovEntryFor (m : OverlayMap) (k : Nat) : Option (Nat × Block) :=
  match lookupOverlay m k with
  | some b => if b = Block.Empty then none else some (k, b)
  | none => none

/-- The `(key, value)` pairs the serializer's entry loop emits, over the
sorted keys. -/
def ovEntries (m : OverlayMap) : OverlayMap :=
  (overlaySortedKeys m).filterMap (ovEntryFor m)

/-- Byte stream of a run of `(u32 key, u8 value)` overlay entries. -/
def ovEncodeEntries (es : OverlayMap) : List Byte :=
  es.flatMap (fun e => u32Bytes e.1 ++ [e.2])

/-- `StatefulChunkOverlay::serialize` (`src/statefulchunkoverlay.cpp:62`):
magic `SCO1`, version 1, reserved 0, `u16` block size (`sizeof(Block)`,
which is 1), `u32` entry count, then the entries in ascending key
order. -/
def overlaySerialize (m : OverlayMap) : List Byte :=
  [83, 67, 79, 49, 1, 0] ++ u16Bytes 1 ++
    u32Bytes (overlaySortedKeys m).length ++ ovEncodeEntries (ovEntries m)

/-- `blocks_.emplace(key, block)` (`src/statefulchunkoverlay.cpp:145`):
insert only when the key is not yet present. -/
def ovEmplace (m : OverlayMap) (k : Nat) (b : Block) : OverlayMap :=
  if (m.find? (fun e => decide (e.1 = k))).isSome then m else m ++ [(k, b)]

/-- The deserializer's entry loop (`src/statefulchunkoverlay.cpp:135`):
read `count` `(u32 key, u8 value)` pairs, inserting each non-`Empty`
value; `none` models reading past the end of the buffer (excluded by the
length check). -/
def parseOvEntries (count : Nat) (data : List Byte) (acc : OverlayMap) :
    Option OverlayMap :=
  match count with
  | 0 => some acc
  | c + 1 =>
      match data with
      | k0 :: k1 :: k2 :: k3 :: v :: rest =>
          parseOvEntries c rest
            (if v = Block.Empty then acc
             else ovEmplace acc (decodeU32 k0 k1 k2 k3) v)
      | _ => none

/-- `StatefulChunkOverlay::deserialize` (`src/statefulchunkoverlay.cpp:102`):
check the magic, the version, the block size and the exact payload
length, then read the entries; the reserved byte is ignored. -/
def overlayDeserialize (data : List Byte) : Option OverlayMap :=
  match data with
  | m0 :: m1 :: m2 :: m3 :: v :: _ :: s0 :: s1 :: c0 :: c1 :: c2 :: c3 :: rest =>
      if m0 = 83 ∧ m1 = 67 ∧ m2 = 79 ∧ m3 = 49 then
        if v = 1 then
          if decodeU16 s0 s1 = 1 then
            if rest.length = decodeU32 c0 c1 c2 c3 * 5 then
              parseOvEntries (decodeU32 c0 c1 c2 c3) rest []
            else none
          else none
        else none
      else none
  | _ => none

theorem mem_of_lookupOverlay (m : OverlayMap) (k : Nat) (b : Block)
    (h : lookupOverlay m k = some b) : (k, b) ∈ m := by
  unfold lookupOverlay at h
  obtain ⟨e2, hfind, hsnd⟩ := Option.map_eq_some'.mp h
  obtain ⟨a, c⟩ := e2
  have hmem := List.mem_of_find?_eq_some hfind
  have hpe : a = k := by simpa using List.find?_some hfind
  have hce : c = b := hsnd
  rw [← hpe, ← hce]
  exact hmem

theorem lookupOverlay_isSome_of_mem_keys (m : OverlayMap) (k : Nat)
    (h : k ∈ m.map Prod.fst) : ∃ b, lookupOverlay m k = some b := by
  obtain ⟨e, hem, hek⟩ := List.mem_map.mp h
  have hs : (m.find? (fun e => decide (e.1 = k))).isSome :=
    List.find?_isSome.mpr ⟨e, hem, by simpa using hek⟩
  obtain ⟨e2, he2⟩ := Option.isSome_iff_exists.mp hs
  refine ⟨e2.2, ?_⟩
  unfold lookupOverlay
  rw [he2]
  rfl

theorem lookupOverlay_eq_none (m : OverlayMap) (k : Nat)
    (h : k ∉ m.map Prod.fst) : lookupOverlay m k = none := by
  unfold lookupOverlay
  rw [List.find?_eq_none.mpr]
  · rfl
  · intro x hx
    simp only [decide_eq_true_eq]
    intro hxk
    exact h (List.mem_map.mpr ⟨x, hx, hxk⟩)

theorem parseOvEntries_cons (k : Nat) (hk : k < 2 ^ 32) (b : Block)
    (hb : b ≠ Block.Empty) (tail : List Byte) (c : Nat) (acc : OverlayMap) :
    parseOvEntries (c + 1) (u32Bytes k ++ b :: tail) acc =
      parseOvEntries c tail (ovEmplace acc k b) := by
  have hd := decodeU32_u32Bytes' k hk
  simp only [u32Bytes, List.cons_append, List.nil_append]
  conv_lhs => unfold parseOvEntries
  simp only [hd]
  rw [if_neg hb]

theorem parseOvEntries_encode (es : OverlayMap) :
    ∀ (acc : OverlayMap), (∀ e ∈ es, e.1 < 2 ^ 32) →
      (∀ e ∈ es, e.2 ≠ Block.Empty) →
      parseOvEntries es.length (ovEncodeEntries es) acc =
        some (es.foldl (fun m e => ovEmplace m e.1 e.2) acc) := by
  induction es with
  | nil => intro _ _ _; rfl
  | cons e rest ih =>
    intro acc hk hv
    obtain ⟨k, b⟩ := e
    have hflat : ovEncodeEntries ((k, b) :: rest) =
        u32Bytes k ++ b :: ovEncodeEntries rest := by
      unfold ovEncodeEntries
      simp [List.flatMap_cons]
    have hk1 : k < 2 ^ 32 := hk (k, b) (by simp)
    have hb1 : b ≠ Block.Empty := hv (k, b) (by simp)
    rw [List.length_cons, hflat, parseOvEntries_cons k hk1 b hb1 _ _ _,
      ih (ovEmplace acc k b) (fun e he => hk e (List.mem_cons_of_mem _ he))
        (fun e he => hv e (List.mem_cons_of_mem _ he)),
      List.foldl_cons]

theorem foldl_ovEmplace (es : OverlayMap) :
    ∀ (acc : OverlayMap), ((acc ++ es).map Prod.fst).Nodup →
      es.foldl (fun m e => ovEmplace m e.1 e.2) acc = acc ++ es := by
  induction es with
  | nil => intro acc _; simp
  | cons e rest ih =>
    intro acc hnd
    obtain ⟨k, b⟩ := e
    have hnd' : (acc.map Prod.fst ++ k :: rest.map Prod.fst).Nodup := by
      simpa using hnd
    obtain ⟨h1, h2, hdisj⟩ := List.nodup_append.mp hnd'
    have hknotin : k ∉ acc.map Prod.fst := fun hmem => hdisj hmem (by simp)
    have hemp : ovEmplace acc k b = acc ++ [(k, b)] := by
      unfold ovEmplace
      rw [if_neg]
      intro hsome
      obtain ⟨e2, hfind⟩ := Option.isSome_iff_exists.mp hsome
      have hmem := List.mem_of_find?_eq_some hfind
      have hpe := List.find?_some hfind
      exact hknotin (List.mem_map.mpr ⟨e2, hmem, by simpa using hpe⟩)
    have hnd2 : (((acc ++ [(k, b)]) ++ rest).map Prod.fst).Nodup := by
      simpa [List.append_assoc] using hnd
    simp only [List.foldl_cons]
    rw [hemp, ih (acc ++ [(k, b)]) hnd2]
    simp

theorem ovEncodeEntries_length (es : OverlayMap) :
    (ovEncodeEntries es).length = es.length * 5 := by
  induction es with
  | nil => rfl
  | cons e rest ih =>
    have hflat : ovEncodeEntries (e :: rest) =
        u32Bytes e.1 ++ e.2 :: ovEncodeEntries rest := by
      unfold ovEncodeEntries
      simp [List.flatMap_cons]
    rw [hflat]
    simp only [List.length_append, List.length_cons, u32Bytes, ih]
    simp [Nat.mul_comm]
    omega

theorem length_filterMap_keyed (g : Nat → Option (Nat × Block)) :
    ∀ (ks : List Nat), (∀ j ∈ ks, (g j).isSome) →
      (ks.filterMap g).length = ks.length := by
  intro ks
  induction ks with
  | nil => intro _; rfl
  | cons j rest ih =>
    intro htot
    rw [List.filterMap_cons]
    obtain ⟨e, he⟩ := Option.isSome_iff_exists.mp (htot j (by simp))
    rw [he, List.length_cons, List.length_cons,
      ih (fun a ha => htot a (List.mem_cons_of_mem _ ha))]

theorem map_fst_filterMap_keyed (g : Nat → Option (Nat × Block))
    (hg : ∀ j e, g j = some e → e.1 = j) (ks : List Nat) :
    (ks.filterMap g).map Prod.fst = ks.filter (fun j => (g j).isSome) := by
  induction ks with
  | nil => rfl
  | cons j rest ih =>
    rw [List.filterMap_cons]
    cases hgj : g j with
    | none => rw [ih, List.filter_cons_of_neg (by simp [hgj])]
    | some e =>
      rw [List.map_cons, ih, hg j e hgj,
        List.filter_cons_of_pos (by simp [hgj])]

theorem find?_filterMap_keyed (g : Nat → Option (Nat × Block))
    (hg : ∀ j e, g j = some e → e.1 = j) (k : Nat) :
    ∀ (ks : List Nat), ks.Nodup →
      (ks.filterMap g).find? (fun e => decide (e.1 = k)) =
        if k ∈ ks then g k else none := by
  intro ks
  induction ks with
  | nil => intro _; simp
  | cons j rest ih =>
    intro hnd
    obtain ⟨hjr, hnd2⟩ := List.nodup_cons.mp hnd
    by_cases hjk : j = k
    · subst hjk
      have hnone : (rest.filterMap g).find? (fun e => decide (e.1 = j)) = none := by
        rw [List.find?_eq_none]
        intro x hx
        simp only [decide_eq_true_eq]
        intro hxj
        obtain ⟨a, ha, hga⟩ := List.mem_filterMap.mp hx
        have ha1 : x.1 = a := hg a x hga
        have haj : a = j := by rw [← ha1]; exact hxj
        exact hjr (haj ▸ ha)
      rw [List.filterMap_cons]
      cases hgj : g j with
      | none =>
        rw [hnone, if_pos (by simp)]
      | some e =>
        have he1 : e.1 = j := hg j e hgj
        rw [List.find?_cons_of_pos _ (by simp [he1]), if_pos (by simp)]
    · rw [List.filterMap_cons]
      have hnotc : k ∈ j :: rest → k ∈ rest := by
        intro h
        rcases List.mem_cons.mp h with h1 | h1
        · exact absurd h1.symm hjk
        · exact h1
      cases hgj : g j with
      | none =>
        rw [ih hnd2]
        by_cases hkr : k ∈ rest
        · rw [if_pos hkr, if_pos (List.mem_cons_of_mem _ hkr)]
        · rw [if_neg hkr, if_neg (fun h => hkr (hnotc h))]
      | some e =>
        have he1 : e.1 = j := hg j e hgj
        rw [List.find?_cons_of_neg _ (by simp [he1, hjk]), ih hnd2]
        by_cases hkr : k ∈ rest
        · rw [if_pos hkr, if_pos (List.mem_cons_of_mem _ hkr)]
        · rw [if_neg hkr, if_neg (fun h => hkr (hnotc h))]

theorem ovEntryFor_key (m : OverlayMap) :
    ∀ j e, ovEntryFor m j = some e → e.1 = j := by
  intro j e he
  unfold ovEntryFor at he
  split at he
  · split at he
    · exact Option.noConfusion he
    · cases he
      rfl
  · exact Option.noConfusion he

theorem ovEntryFor_of_some (m : OverlayMap) (k : Nat) (b : Block)
    (hb : lookupOverlay m k = some b) (hne : b ≠ Block.Empty) :
    ovEntryFor m k = some (k, b) := by
  unfold ovEntryFor
  simp only [hb]
  rw [if_neg hne]

theorem lookupOverlay_ovEntries (m : OverlayMap)
    (hnd : (m.map Prod.fst).Nodup) (hv : ∀ e ∈ m, e.2 ≠ Block.Empty)
    (k : Nat) : lookupOverlay (ovEntries m) k = lookupOverlay m k := by
  have hperm : (overlaySortedKeys m).Perm (m.map Prod.fst) :=
    List.mergeSort_perm (m.map Prod.fst) _
  have hndks : (overlaySortedKeys m).Nodup := hperm.nodup_iff.mpr hnd
  have heq : lookupOverlay (ovEntries m) k =
      ((if k ∈ overlaySortedKeys m then ovEntryFor m k else none).map Prod.snd) := by
    unfold lookupOverlay ovEntries
    rw [find?_filterMap_keyed (ovEntryFor m) (ovEntryFor_key m) k _ hndks]
  by_cases hmem : k ∈ overlaySortedKeys m
  · have hmem2 : k ∈ m.map Prod.fst := hperm.mem_iff.mp hmem
    obtain ⟨b, hb⟩ := lookupOverlay_isSome_of_mem_keys m k hmem2
    have hbne : b ≠ Block.Empty := hv (k, b) (mem_of_lookupOverlay m k b hb)
    rw [heq, if_pos hmem, ovEntryFor_of_some m k b hb hbne, hb]
    rfl
  · have hmem2 : k ∉ m.map Prod.fst := fun h => hmem (hperm.mem_iff.mpr h)
    rw [heq, if_neg hmem, lookupOverlay_eq_none m k hmem2]
    rfl

theorem overlayDeserialize_serialize (m : OverlayMap)
    (hnd : (m.map Prod.fst).Nodup) (hv : ∀ e ∈ m, e.2 ≠ Block.Empty)
    (hk : ∀ e ∈ m, e.1 < 2 ^ 32) (hc : m.length < 2 ^ 32) :
    overlayDeserialize (overlaySerialize m) = some (ovEntries m) := by
  have hperm : (overlaySortedKeys m).Perm (m.map Prod.fst) :=
    List.mergeSort_perm (m.map Prod.fst) _
  have hndks : (overlaySortedKeys m).Nodup := hperm.nodup_iff.mpr hnd
  have hkslen : (overlaySortedKeys m).length < 2 ^ 32 := by
    rw [hperm.length_eq, List.length_map]
    exact hc
  have htot : ∀ j ∈ overlaySortedKeys m, (ovEntryFor m j).isSome := by
    intro j hj
    have hj2 : j ∈ m.map Prod.fst := hperm.mem_iff.mp hj
    obtain ⟨b, hb⟩ := lookupOverlay_isSome_of_mem_keys m j hj2
    have hbne : b ≠ Block.Empty := hv (j, b) (mem_of_lookupOverlay m j b hb)
    rw [ovEntryFor_of_some m j b hb hbne]
    rfl
  have hlen_es : (ovEntries m).length = (overlaySortedKeys m).length := by
    unfold ovEntries
    exact length_filterMap_keyed (ovEntryFor m) _ htot
  have hmem_es : ∀ e ∈ ovEntries m, e.1 < 2 ^ 32 ∧ e.2 ≠ Block.Empty := by
    intro e he
    unfold ovEntries at he
    obtain ⟨j, hj, hgj⟩ := List.mem_filterMap.mp he
    have he1 : e.1 = j := ovEntryFor_key m j e hgj
    constructor
    · have hj2 : j ∈ m.map Prod.fst := hperm.mem_iff.mp hj
      obtain ⟨e2, he2m, he2k⟩ := List.mem_map.mp hj2
      rw [he1, ← he2k]
      exact hk e2 he2m
    · unfold ovEntryFor at hgj
      split at hgj
      · split at hgj
        · exact Option.noConfusion hgj
        · rename_i hbne
          cases hgj
          exact hbne
      · exact Option.noConfusion hgj
  have hnd_es : ((ovEntries m).map Prod.fst).Nodup := by
    unfold ovEntries
    rw [map_fst_filterMap_keyed (ovEntryFor m) (ovEntryFor_key m)]
    exact hndks.filter _
  unfold overlaySerialize
  simp only [u16Bytes, u32Bytes, List.cons_append, List.nil_append, List.append_assoc]
  simp only [overlayDeserialize]
  have hu16 : decodeU16 ⟨1 % 256, Nat.mod_lt _ (by norm_num)⟩
      ⟨1 / 256 % 256, Nat.mod_lt _ (by norm_num)⟩ = 1 := by decide
  have hlen5 : (ovEncodeEntries (ovEntries m)).length =
      (overlaySortedKeys m).length * 5 := by
    rw [ovEncodeEntries_length, hlen_es]
  rw [if_pos ⟨trivial, trivial, trivial, trivial⟩]
  rw [if_pos hu16]
  rw [decodeU32_u32Bytes' (overlaySortedKeys m).length hkslen]
  rw [if_pos hlen5]
  rw [← hlen_es]
  rw [parseOvEntries_encode (ovEntries m) [] (fun e he => (hmem_es e he).1)
    (fun e he => (hmem_es e he).2)]
  rw [foldl_ovEmplace (ovEntries m) [] (by simpa using hnd_es)]
  simp

/-- **C3** — For every chunk buffer, deserializing the bytes produced by
serialization reconstructs the original buffer exactly: the
`ChunkSpan` version-byte-plus-coords codec returns the same position tag
and the same block array (given the `int32_t` range the C++ field types
guarantee), and `StatefulChunkOverlay::deserialize ∘ serialize` returns
an overlay with exactly the same sparse non-`Empty` block map (given the
`unordered_map` invariants: distinct `uint32_t` keys and no `Empty`
values, which `setBlock` maintains). -/
theorem claim_C3_codec_round_trip
    (buf : ChunkSpanM)
    (hx : fitsI32 buf.position.x) (hy : fitsI32 buf.position.y)
    (hz : fitsI32 buf.position.z)
    (ov : OverlayMap)
    (hnd : (ov.map Prod.fst).Nodup)
    (hv : ∀ e ∈ ov, e.2 ≠ Block.Empty)
    (hk : ∀ e ∈ ov, e.1 < 2 ^ 32)
    (hc : ov.length < 2 ^ 32) :
    ChunkSpanM.deserialize buf.serialize = some buf ∧
    ∃ ov2, overlayDeserialize (overlaySerialize ov) = some ov2 ∧
      ∀ k, lookupOverlay ov2 k = lookupOverlay ov k :=
  ⟨ChunkSpanM.deserialize_serialize buf hx hy hz,
   ⟨ovEntries ov, overlayDeserialize_serialize ov hnd hv hk hc,
    lookupOverlay_ovEntries ov hnd hv⟩⟩

/-- A concrete chunk buffer at position `(-3, 0, 7)`, all cells `Empty`. -/
def bufW : ChunkSpanM := ⟨⟨-3, 0, 7⟩, fun _ => Block.Empty⟩

/-- A concrete overlay map: Stone at packed key `0x010203`, Dirt at
packed key `0x040506`. -/
def ovW : OverlayMap := [(66051, Block.Stone), (263430, Block.Dirt)]

theorem claim_C3_witness :
    (fitsI32 bufW.position.x ∧ fitsI32 bufW.position.y ∧
     fitsI32 bufW.position.z ∧ (ovW.map Prod.fst).Nodup ∧
     (∀ e ∈ ovW, e.2 ≠ Block.Empty) ∧ (∀ e ∈ ovW, e.1 < 2 ^ 32) ∧
     ovW.length < 2 ^ 32) ∧
    (ChunkSpanM.deserialize bufW.serialize = some bufW ∧
     ∃ ov2, overlayDeserialize (overlaySerialize ovW) = some ov2 ∧
       ∀ k, lookupOverlay ov2 k = lookupOverlay ovW k) :=
  ⟨⟨by decide, by decide, by decide, by decide, by decide, by decide, by decide⟩,
   claim_C3_codec_round_trip bufW (by decide) (by decide) (by decide)
     ovW (by decide) (by decide) (by decide) (by decide)⟩
